import Mathlib

/-!
Verification of the jiji proof-of-work blockchain node (Python sources under
src/jiji) against its natural-language specification.

Modelling conventions:
* Python `bytes` values are `List Nat` (each entry a byte value).
* Python `dict` objects are insertion-ordered association lists
  (`List (key × value)`); assignment updates the first binding in place or
  appends a fresh binding at the end, exactly as CPython dicts behave.
* Python `set` objects are lists with membership-guarded insertion.
* Machine integers are `Int` (Python ints are unbounded, so no wrapping).
* SHA-256 (`hashlib.sha256`, an external library) is an abstract parameter
  `sha : List Nat → List Nat`; canonical JSON serialization (`json.dumps`
  with sorted keys, an external library) is an abstract parameter
  `dumps : Json → List Nat` over a faithful `Json` value model; Ed25519
  verification (the `cryptography` library) is an abstract parameter
  returning either success or one of the exceptions the library documents.
* Fallible code returns `Except String α`; the mutating `add_block` method
  is additionally given as a state-and-exception monad computation so that
  "raises without mutating" is expressible.
* Python floats are IEEE-754 binary64 values; they are modelled exactly as
  the rationals they denote, with a round-to-nearest-even operation.
-/

namespace Jiji

/-- Byte strings (`bytes` in Python). -/
abbrev Bytes := List Nat

/-- `bytes(32)`: thirty-two zero bytes. -/
def zero32 : Bytes := List.replicate 32 0

/-! ### Association lists: the model of Python `dict` -/

/-- `d.get(k)` / `d[k]`: value of the first binding of `k`. -/
def alookup {V : Type} (l : List (Bytes × V)) (k : Bytes) : Option V :=
  match l with
  | [] => none
  | (k2, v) :: rest => if k2 = k then some v else alookup rest k

/-- `d[k] = v`: overwrite the first binding of `k` in place, or append. -/
def aset {V : Type} (l : List (Bytes × V)) (k : Bytes) (v : V) :
    List (Bytes × V) :=
  match l with
  | [] => [(k, v)]
  | (k2, v2) :: rest =>
      if k2 = k then (k2, v) :: rest else (k2, v2) :: aset rest k v

/-- `del d[k]`: drop the first binding of `k`. -/
def aerase {V : Type} (l : List (Bytes × V)) (k : Bytes) :
    List (Bytes × V) :=
  match l with
  | [] => []
  | (k2, v2) :: rest =>
      if k2 = k then rest else (k2, v2) :: aerase rest k

/-- `s.add(x)` on a Python set, modelled as guarded append. -/
def sadd (l : List Bytes) (x : Bytes) : List Bytes :=
  if x ∈ l then l else l ++ [x]

/-! ### Protocol constants (src/jiji/core/config.py) -/

def PROTOCOL_VERSION : Int := 1
def BLOCK_TIME_TARGET : Int := 15
def DIFFICULTY_ADJUSTMENT_WINDOW : Int := 100
def MAX_DIFFICULTY_ADJUSTMENT : Int := 4
def MAX_BLOCK_SIZE : Int := 262144
def POST_BODY_LIMIT : Nat := 300
def ENDORSE_MESSAGE_LIMIT : Nat := 150
def MINIMUM_GAS_FEE : Int := 1
def INITIAL_BLOCK_REWARD : Int := 50
def HALVING_INTERVAL : Int := 210000
def MAX_MEMPOOL_SIZE : Nat := 10000
def MAX_FUTURE_TIMESTAMP : Int := 120
def MEDIAN_TIME_BLOCK_COUNT : Nat := 11
def GENESIS_DIFFICULTY : Int := 1

/-- `MAX_TARGET = (1 << 256) - 1`. -/
def MAX_TARGET : Int := 2 ^ 256 - 1

/-- `block_reward(height)`: halving schedule.  Python floor division by the
positive constant `HALVING_INTERVAL` is `Int.ediv`; the right shift of the
nonnegative reward is division by a power of two.  (For negative heights the
Python code would raise on the negative shift; every call site passes a
nonnegative height.) -/
def block_reward (height : Int) : Int :=
  let halvings := Int.ediv height HALVING_INTERVAL
  if 64 ≤ halvings then 0
  else Int.ediv INITIAL_BLOCK_REWARD (2 ^ halvings.toNat)

/-! ### Canonical JSON values (src/jiji/core/serialization.py)

`to_dict` methods build dictionaries whose values are integers, strings,
lowercase-hex renderings of byte strings, `None`, nested dictionaries and
lists.  The `Json.bytes` constructor stands for the hex string `b.hex()` of a
byte value (hex rendering is injective on byte strings, which the constructor
reflects).  `json.dumps(…, sort_keys=True, separators=(",", ":"))` is the
abstract parameter `dumps`; key sorting never matters because every
dictionary below is a literal with a fixed key set. -/

inductive Json : Type
  | null : Json
  | int (n : Int) : Json
  | str (s : String) : Json
  | bytes (b : Bytes) : Json
  | obj (fields : List (String × Json)) : Json
  | arr (elems : List Json) : Json

/-- `_to_hex` applied to an optional byte string: `null` for `None`. -/
def optBytes : Option Bytes → Json
  | none => Json.null
  | some b => Json.bytes b

section Model

variable (sha : List Nat → List Nat)
variable (dumps : Json → List Nat)

/-- `canonicalize(data, exclude_fields)`: drop the excluded top-level keys
(preserving order) and serialize. -/
def canonicalize (fields : List (String × Json)) (excl : List String) :
    List Nat :=
  dumps (Json.obj (fields.filter (fun kv => !(excl.contains kv.1))))

/-- `compute_hash(data, exclude_fields)`. -/
def compute_hash (fields : List (String × Json)) (excl : List String) :
    List Nat :=
  sha (canonicalize dumps fields excl)

end Model

/-! ### Ed25519 (src/jiji/core/crypto.py)

The `cryptography` library's `from_public_bytes` raises `ValueError` on
malformed key bytes and `verify` raises `InvalidSignature` on a bad
signature; these are the documented failure modes and exactly the exceptions
the repository catches. -/

inductive CryptoError : Type
  | invalidSignature : CryptoError
  | valueError : CryptoError

section Model

variable (ed : List Nat → List Nat → List Nat → Except CryptoError Unit)

/-- `verify(public_key_bytes, message, signature)`: run the library
verification and catch `(InvalidSignature, ValueError)`, returning `False`.
Every possible library outcome is covered, so the wrapper is a total
boolean function: no exception reaches the caller. -/
def verify (pk msg sig : List Nat) : Bool :=
  match ed pk msg sig with
  | Except.ok _ => true
  | Except.error CryptoError.invalidSignature => false
  | Except.error CryptoError.valueError => false

end Model

/-! ### Transactions (src/jiji/core/transaction.py) -/

structure Post : Type where
  author : Bytes
  nonce : Int
  timestamp : Int
  body : String
  reply_to : Option Bytes
  gas_fee : Int
  signature : Bytes
deriving DecidableEq

structure Endorse : Type where
  author : Bytes
  nonce : Int
  target : Bytes
  amount : Int
  message : String
  gas_fee : Int
  signature : Bytes
deriving DecidableEq

structure Transfer : Type where
  sender : Bytes
  recipient : Bytes
  amount : Int
  nonce : Int
  gas_fee : Int
  signature : Bytes
deriving DecidableEq

structure Coinbase : Type where
  recipient : Bytes
  amount : Int
  height : Int
deriving DecidableEq

/-- The union `Post | Endorse | Transfer | Coinbase`; Python `isinstance`
dispatch becomes a match on this closed sum. -/
inductive Transaction : Type
  | post (p : Post)
  | endorse (e : Endorse)
  | transfer (t : Transfer)
  | coinbase (c : Coinbase)
deriving DecidableEq

def Post.to_dict (p : Post) : List (String × Json) :=
  [("tx_type", Json.str "post"),
   ("author", Json.bytes p.author),
   ("nonce", Json.int p.nonce),
   ("timestamp", Json.int p.timestamp),
   ("body", Json.str p.body),
   ("reply_to", optBytes p.reply_to),
   ("gas_fee", Json.int p.gas_fee),
   ("signature", optBytes (some p.signature))]

def Endorse.to_dict (e : Endorse) : List (String × Json) :=
  [("tx_type", Json.str "endorse"),
   ("author", Json.bytes e.author),
   ("nonce", Json.int e.nonce),
   ("target", Json.bytes e.target),
   ("amount", Json.int e.amount),
   ("message", Json.str e.message),
   ("gas_fee", Json.int e.gas_fee),
   ("signature", optBytes (some e.signature))]

def Transfer.to_dict (t : Transfer) : List (String × Json) :=
  [("tx_type", Json.str "transfer"),
   ("sender", Json.bytes t.sender),
   ("recipient", Json.bytes t.recipient),
   ("amount", Json.int t.amount),
   ("nonce", Json.int t.nonce),
   ("gas_fee", Json.int t.gas_fee),
   ("signature", optBytes (some t.signature))]

def Coinbase.to_dict (c : Coinbase) : List (String × Json) :=
  [("tx_type", Json.str "coinbase"),
   ("recipient", Json.bytes c.recipient),
   ("amount", Json.int c.amount),
   ("height", Json.int c.height)]

def Transaction.to_dict : Transaction → List (String × Json)
  | Transaction.post p => p.to_dict
  | Transaction.endorse e => e.to_dict
  | Transaction.transfer t => t.to_dict
  | Transaction.coinbase c => c.to_dict

/-- The `signer_key` property of the three `Signable` variants. -/
def Transaction.signer_key : Transaction → Bytes
  | Transaction.post p => p.author
  | Transaction.endorse e => e.author
  | Transaction.transfer t => t.sender
  | Transaction.coinbase c => c.recipient

def Transaction.signature : Transaction → Bytes
  | Transaction.post p => p.signature
  | Transaction.endorse e => e.signature
  | Transaction.transfer t => t.signature
  | Transaction.coinbase _ => []

def Transaction.isCoinbase : Transaction → Bool
  | Transaction.coinbase _ => true
  | _ => false

/-- `gas_fee` as the mempool's `_get_gas_fee` reads it (0 for coinbase). -/
def Transaction.gas_fee : Transaction → Int
  | Transaction.post p => p.gas_fee
  | Transaction.endorse e => e.gas_fee
  | Transaction.transfer t => t.gas_fee
  | Transaction.coinbase _ => 0

section Model

variable (sha : List Nat → List Nat)
variable (dumps : Json → List Nat)
variable (ed : List Nat → List Nat → List Nat → Except CryptoError Unit)

/-- `tx_hash`: content address.  The `Signable` mixin excludes the
`signature` field; `Coinbase.tx_hash` hashes every field (it has no
signature field to exclude, so the empty exclusion set is faithful). -/
def Transaction.tx_hash (tx : Transaction) : Bytes :=
  match tx with
  | Transaction.coinbase _ => compute_hash sha dumps tx.to_dict []
  | _ => compute_hash sha dumps tx.to_dict ["signature"]

/-- `Signable.verify_signature`: `False` on an empty signature, otherwise
library verification of the canonical payload with `signature` excluded.
(Never invoked on a coinbase, which has no signature pathway; the coinbase
arm returns `False` for totality.) -/
def Transaction.verify_signature (tx : Transaction) : Bool :=
  match tx with
  | Transaction.coinbase _ => false
  | _ =>
    if tx.signature = [] then false
    else
      verify ed tx.signer_key
        (canonicalize dumps tx.to_dict ["signature"]) tx.signature

end Model

/-! ### Merkle tree (src/jiji/core/merkle.py)

The Python `while len(level) > 1` loop halves the level length each
iteration; it is rendered with an explicit iteration budget (`fuel`) so that
the definitions reduce computationally.  Any `fuel ≥ level.length` is beyond
the number of iterations the loop can perform, and the entry points pass the
initial length. -/

section Model

variable (sha : List Nat → List Nat)

/-- Odd-length levels duplicate their last element (`level.append(level[-1])`). -/
def padLevel (level : List Bytes) : List Bytes :=
  if level.length % 2 = 1 then level ++ [level.getLastD []] else level

/-- Pairwise concatenate-and-hash (`for i in range(0, len(level), 2)`). -/
def pairUp : List Bytes → List Bytes
  | a :: b :: rest => sha (a ++ b) :: pairUp rest
  | _ => []

/-- The level-reduction loop of `merkle_root`. -/
def rootLoop : Nat → List Bytes → Bytes
  | 0, level => level.headD []
  | fuel + 1, level =>
      if level.length ≤ 1 then level.headD []
      else rootLoop fuel (pairUp sha (padLevel level))

/-- `merkle_root(hashes)`: `EMPTY_HASH = sha256(b"")` on the empty list. -/
def merkle_root (hashes : List Bytes) : Bytes :=
  if hashes.isEmpty then sha [] else rootLoop sha hashes.length hashes

/-- The level-reduction loop of `merkle_proof`, collecting
`(sibling, sibling_is_left)` pairs. -/
def proofLoop : Nat → List Bytes → Nat → List (Bytes × Bool)
  | 0, _, _ => []
  | fuel + 1, level, idx =>
      if level.length ≤ 1 then []
      else
        let lv := padLevel level
        let step :=
          if idx % 2 = 0 then (lv.getD (idx + 1) [], false)
          else (lv.getD (idx - 1) [], true)
        step :: proofLoop fuel (pairUp sha lv) (idx / 2)

/-- `merkle_proof(hashes, index)`: raises (`none`) on an empty list or an
out-of-range index. -/
def merkle_proof (hashes : List Bytes) (index : Nat) :
    Option (List (Bytes × Bool)) :=
  if hashes.isEmpty ∨ hashes.length ≤ index then none
  else some (proofLoop sha hashes.length hashes index)

/-- The candidate-root rebuild inside `verify_merkle_proof`. -/
def foldProof (leaf : Bytes) (proof : List (Bytes × Bool)) : Bytes :=
  proof.foldl
    (fun current p =>
      if p.2 then sha (p.1 ++ current) else sha (current ++ p.1))
    leaf

/-- `verify_merkle_proof(leaf_hash, proof, root)`. -/
def verify_merkle_proof (leaf : Bytes) (proof : List (Bytes × Bool))
    (root : Bytes) : Bool :=
  foldProof sha leaf proof = root

end Model

/-! ### World state (src/jiji/core/state.py) -/

structure Account : Type where
  balance : Int
  nonce : Int
deriving DecidableEq

/-- The zero-initialized account `Account()`. -/
def Account.new : Account := { balance := 0, nonce := 0 }

/-- `WorldState.accounts`: pubkey → account, insertion-ordered. -/
abbrev WorldState := List (Bytes × Account)

/-- `get_or_create(pubkey)` followed by in-place mutation of the returned
account object: rewrite the existing binding with `f`, or append a freshly
zero-initialized account mutated by `f`. -/
def touchAccount (s : WorldState) (k : Bytes) (f : Account → Account) :
    WorldState :=
  match alookup s k with
  | some a => aset s k (f a)
  | none => s ++ [(k, f Account.new)]

/-- `account.balance += d` (a pure credit leaves the nonce alone). -/
def credit (d : Int) (a : Account) : Account :=
  { a with balance := a.balance + d }

/-- `account.balance -= d; account.nonce += 1` (the sender/author side of
every signed transaction). -/
def debitBump (d : Int) (a : Account) : Account :=
  { balance := a.balance - d, nonce := a.nonce + 1 }

def applyCoinbase (s : WorldState) (c : Coinbase) : WorldState :=
  touchAccount s c.recipient (credit c.amount)

def applyPost (s : WorldState) (p : Post) (miner : Bytes) : WorldState :=
  touchAccount (touchAccount s p.author (debitBump p.gas_fee)) miner
    (credit p.gas_fee)

def applyEndorse (s : WorldState) (e : Endorse) (miner : Bytes)
    (target_author : Option Bytes) : WorldState :=
  let s2 := touchAccount
    (touchAccount s e.author (debitBump (e.gas_fee + e.amount))) miner
    (credit e.gas_fee)
  match target_author with
  | some ta => if 0 < e.amount then touchAccount s2 ta (credit e.amount) else s2
  | none => s2

def applyTransfer (s : WorldState) (t : Transfer) (miner : Bytes) :
    WorldState :=
  touchAccount
    (touchAccount (touchAccount s t.sender (debitBump (t.amount + t.gas_fee)))
      t.recipient (credit t.amount))
    miner (credit t.gas_fee)

/-- `apply_transaction(tx, miner, target_author)`.  (In `_apply_endorse` the
Python guard is `tx.amount > 0 and target_author is not None`.) -/
def apply_transaction (s : WorldState) (tx : Transaction) (miner : Bytes)
    (target_author : Option Bytes) : WorldState :=
  match tx with
  | Transaction.coinbase c => applyCoinbase s c
  | Transaction.post p => applyPost s p miner
  | Transaction.endorse e => applyEndorse s e miner target_author
  | Transaction.transfer t => applyTransfer s t miner

/-- Lexicographic order on byte strings, as Python compares `bytes`. -/
def bytesLE : Bytes → Bytes → Bool
  | [], _ => true
  | _ :: _, [] => false
  | a :: as2, b :: bs2 =>
      if a < b then true else if b < a then false else bytesLE as2 bs2

/-- Stable insertion into a `bytesLE`-sorted list. -/
def insortBytes (x : Bytes) : List Bytes → List Bytes
  | [] => [x]
  | y :: ys => if bytesLE x y then x :: y :: ys else y :: insortBytes x ys

/-- `sorted(keys)`: the unique stable `bytesLE`-sort of the key list. -/
def sortBytes (l : List Bytes) : List Bytes :=
  l.foldr insortBytes []

section Model

variable (sha : List Nat → List Nat)
variable (dumps : Json → List Nat)

/-- One leaf of the state Merkle tree:
`canonicalize({pubkey, balance, nonce})`, hashed. -/
def stateLeaf (s : WorldState) (pk : Bytes) : Bytes :=
  let account := (alookup s pk).getD Account.new
  sha (canonicalize dumps
    [("pubkey", Json.bytes pk),
     ("balance", Json.int account.balance),
     ("nonce", Json.int account.nonce)] [])

/-- `state_root()`: Merkle root over accounts sorted by pubkey;
`sha256(b"")` when there are no accounts. -/
def state_root (s : WorldState) : Bytes :=
  if s.isEmpty then sha []
  else
    merkle_root sha ((sortBytes (s.map (fun kv => kv.1))).map (stateLeaf sha dumps s))

end Model

/-! ### Blocks (src/jiji/core/block.py) -/

structure BlockHeader : Type where
  version : Int
  height : Int
  prev_hash : Bytes
  timestamp : Int
  miner : Bytes
  difficulty : Int
  nonce : Int
  tx_merkle_root : Bytes
  state_root : Bytes
  tx_count : Int
deriving DecidableEq

structure Block : Type where
  header : BlockHeader
  transactions : List Transaction
deriving DecidableEq

def BlockHeader.to_dict (h : BlockHeader) : List (String × Json) :=
  [("version", Json.int h.version),
   ("height", Json.int h.height),
   ("prev_hash", Json.bytes h.prev_hash),
   ("timestamp", Json.int h.timestamp),
   ("miner", Json.bytes h.miner),
   ("difficulty", Json.int h.difficulty),
   ("nonce", Json.int h.nonce),
   ("tx_merkle_root", Json.bytes h.tx_merkle_root),
   ("state_root", Json.bytes h.state_root),
   ("tx_count", Json.int h.tx_count)]

/-- `int.from_bytes(b, "big")`. -/
def fromBytesBE (b : Bytes) : Nat :=
  b.foldl (fun acc x => acc * 256 + x) 0

section Model

variable (sha : List Nat → List Nat)
variable (dumps : Json → List Nat)

/-- `block_hash()`: SHA-256 of the canonical header serialization (nonce
included, nothing excluded). -/
def BlockHeader.block_hash (h : BlockHeader) : Bytes :=
  sha (canonicalize dumps h.to_dict [])

def Block.block_hash (b : Block) : Bytes :=
  b.header.block_hash sha dumps

def Block.to_dict (b : Block) : List (String × Json) :=
  [("header", Json.obj b.header.to_dict),
   ("transactions",
    Json.arr (b.transactions.map (fun tx => Json.obj tx.to_dict)))]

/-- `compute_tx_merkle_root()`. -/
def Block.compute_tx_merkle_root (b : Block) : Bytes :=
  merkle_root sha (b.transactions.map (Transaction.tx_hash sha dumps))

/-- `serialized_size()`. -/
def Block.serialized_size (b : Block) : Int :=
  (canonicalize dumps (b.to_dict) []).length

/-- `meets_difficulty()`: `hash_int ≤ MAX_TARGET // difficulty`.  The Python
floor division is `Int.fdiv` (validation checks the difficulty before the
proof of work, so the divisor is positive on every validated path). -/
def Block.meets_difficulty (b : Block) : Bool :=
  (fromBytesBE (b.block_hash sha dumps) : Int) ≤
    Int.fdiv MAX_TARGET b.header.difficulty

end Model

/-! ### Exact rational arithmetic and IEEE-754 binary64, modelled exactly

`compute_expected_difficulty` performs `expected_time / actual_time`,
`min`/`max` clamping, and `difficulty * ratio` in Python floats, and
`statistics.median` averages two integers with `/`.  A binary64 value is an
exact rational; the model rounds an exact rational result to 53 significand
bits with round-to-nearest, ties-to-even.  Fractions carry an explicitly
positive denominator and are never normalized (all operations and
comparisons are exact on unnormalized representatives). -/

structure Frac : Type where
  num : Int
  den : Int

def Frac.ofInt (n : Int) : Frac := { num := n, den := 1 }

def Frac.mul (a b : Frac) : Frac :=
  { num := a.num * b.num, den := a.den * b.den }

def Frac.sub (a b : Frac) : Frac :=
  { num := a.num * b.den - b.num * a.den, den := a.den * b.den }

/-- Value comparison (denominators positive). -/
def Frac.le (a b : Frac) : Bool := a.num * b.den ≤ b.num * a.den

def Frac.lt (a b : Frac) : Bool := a.num * b.den < b.num * a.den

def Frac.floor (a : Frac) : Int := Int.fdiv a.num a.den

def Frac.ceil (a : Frac) : Int := -Int.fdiv (-a.num) a.den

def Frac.fmin (a b : Frac) : Frac := if Frac.le a b then a else b

def Frac.fmax (a b : Frac) : Frac := if Frac.le a b then b else a

/-- `2^e` as a fraction, for any integer `e`. -/
def pow2F (e : Int) : Frac :=
  if 0 ≤ e then { num := 2 ^ e.toNat, den := 1 }
  else { num := 1, den := 2 ^ (-e).toNat }

/-- Largest `e` (within budget) with `2^e ≤ q`, walking upward from `e`. -/
def expUp : Nat → Int → Frac → Int
  | 0, e, _ => e
  | fuel + 1, e, q =>
      if Frac.le (pow2F (e + 1)) q then expUp fuel (e + 1) q else e

/-- Largest `e` with `2^e ≤ q` for `q < 1`, walking downward. -/
def expDown : Nat → Int → Frac → Int
  | 0, e, _ => e
  | fuel + 1, e, q =>
      if Frac.lt q (pow2F e) then expDown fuel (e - 1) q else e

/-- Binary exponent of a positive rational: the `e` with `2^e ≤ q < 2^(e+1)`.
The budget 3000 covers every magnitude below `2^3000`, far beyond the
`< 2^1024` range where Python floats exist at all. -/
def binExp (q : Frac) : Int :=
  if Frac.le (Frac.ofInt 1) q then expUp 3000 0 q else expDown 3000 0 q

/-- Round a nonnegative rational to the nearest binary64 value
(ties to even), returned as the exact rational it denotes. -/
def roundB64 (q : Frac) : Frac :=
  if Frac.le q (Frac.ofInt 0) then Frac.ofInt 0
  else
    let e := binExp q
    let scale := pow2F (52 - e)
    let f := Frac.mul q scale
    let fl := f.floor
    let frac := Frac.sub f (Frac.ofInt fl)
    let half : Frac := { num := 1, den := 2 }
    let m : Int :=
      if Frac.lt frac half then fl
      else if Frac.lt half frac then fl + 1
      else if fl % 2 = 0 then fl else fl + 1
    Frac.mul (Frac.ofInt m) (pow2F (e - 52))

/-- Python `a / b` on integers (`b > 0` here): true division, correctly
rounded to binary64. -/
def pyDivFloat (a b : Int) : Frac :=
  roundB64 { num := a, den := b }

/-- Python `int_value * float_value`: the integer is converted to binary64,
then the product is rounded to binary64. -/
def pyMulIntFloat (n : Int) (x : Frac) : Frac :=
  roundB64 (Frac.mul (roundB64 (Frac.ofInt n)) x)

/-- Python `int(x)`: truncation toward zero. -/
def pyTrunc (x : Frac) : Int :=
  if Frac.le (Frac.ofInt 0) x then x.floor else x.ceil

/-- Stable insertion into a sorted `Int` list. -/
def insortInt (x : Int) : List Int → List Int
  | [] => [x]
  | y :: ys => if x ≤ y then x :: y :: ys else y :: insortInt x ys

/-- `sorted` on integers (the unique stable ascending sort). -/
def sortInts (l : List Int) : List Int :=
  l.foldr insortInt []

/-- `statistics.median` on a nonempty list of integers: the middle element,
or the exact average of the two middle elements (Python returns a float
there; the value is exact in binary64 only up to 2^53, but the comparison
`timestamp <= median` below is modelled on the exact value, which agrees
with CPython for all realistic timestamps). -/
def median (l : List Int) : Frac :=
  let s := sortInts l
  let n := s.length
  if n % 2 = 1 then Frac.ofInt (s.getD (n / 2) 0)
  else { num := s.getD (n / 2 - 1) 0 + s.getD (n / 2) 0, den := 2 }

/-! ### The chain data (src/jiji/core/chain.py, fields and read accessors) -/

structure Blockchain : Type where
  blocks : List (Bytes × Block)
  main_chain : List Bytes
  state : WorldState
  tx_index : List (Bytes × Bytes)
  known_posts : List Bytes
  post_authors : List (Bytes × Bytes)
deriving DecidableEq

/-- `Blockchain()`. -/
def emptyChain : Blockchain :=
  { blocks := [], main_chain := [], state := [], tx_index := [],
    known_posts := [], post_authors := [] }

/-- The `height` property: `len(self.main_chain) - 1`. -/
def Blockchain.height (c : Blockchain) : Int :=
  (c.main_chain.length : Int) - 1

/-- The `tip` property.  (A hash on the main chain that is missing from the
`blocks` dictionary would raise `KeyError` in Python; the model returns
`none`, and the situation never arises on maintained chains.) -/
def Blockchain.tip (c : Blockchain) : Option Block :=
  match c.main_chain.getLast? with
  | none => none
  | some h => alookup c.blocks h

/-- `get_block_by_height(height)`. -/
def Blockchain.get_block_by_height (c : Blockchain) (height : Int) :
    Option Block :=
  if 0 ≤ height ∧ height < (c.main_chain.length : Int) then
    alookup c.blocks (c.main_chain.getD height.toNat [])
  else none

/-- `get_recent_timestamps(count)`: timestamps of the last `count` main-chain
blocks (0 stands for the `KeyError` of a missing block, which never arises
on maintained chains). -/
def Blockchain.get_recent_timestamps (c : Blockchain) (count : Nat) :
    List Int :=
  (c.main_chain.drop (c.main_chain.length - count)).map
    (fun h =>
      match alookup c.blocks h with
      | some b => b.header.timestamp
      | none => 0)

/-! ### Validation (src/jiji/core/validation.py) -/

/-- `if not cond: raise ValidationError(msg)`. -/
def ensure (cond : Bool) (msg : String) : Except String Unit :=
  if cond then Except.ok () else Except.error msg

section Model

variable (sha : List Nat → List Nat)
variable (dumps : Json → List Nat)
variable (ed : List Nat → List Nat → List Nat → Except CryptoError Unit)

/-- `validate_post_format`.  (`not isinstance(tx.body, str)` is a dynamic
type check that the static `String` field subsumes; `not tx.body` is the
emptiness test.) -/
def validate_post_format (p : Post) : Except String Unit := do
  ensure (1 ≤ p.body.length) "post body must be a non-empty string"
  ensure (p.body.length ≤ POST_BODY_LIMIT) "post body exceeds limit"
  ensure (p.author.length = 32) "author key must be 32 bytes"
  ensure (0 ≤ p.nonce) "nonce must be non-negative"
  ensure (MINIMUM_GAS_FEE ≤ p.gas_fee) "gas fee below minimum"
  ensure (match p.reply_to with
          | none => true
          | some r => r.length = 32) "reply_to must be 32 bytes or null"
  ensure (Transaction.verify_signature dumps ed (Transaction.post p))
    "invalid post signature"

def validate_endorse_format (e : Endorse) : Except String Unit := do
  ensure (e.author.length = 32) "author key must be 32 bytes"
  ensure (e.target.length = 32) "target must be 32 bytes"
  ensure (0 ≤ e.nonce) "nonce must be non-negative"
  ensure (0 ≤ e.amount) "amount must be non-negative"
  ensure (e.message.length ≤ ENDORSE_MESSAGE_LIMIT) "message exceeds limit"
  ensure (MINIMUM_GAS_FEE ≤ e.gas_fee) "gas fee below minimum"
  ensure (Transaction.verify_signature dumps ed (Transaction.endorse e))
    "invalid endorsement signature"

def validate_transfer_format (t : Transfer) : Except String Unit := do
  ensure (t.sender.length = 32) "sender key must be 32 bytes"
  ensure (t.recipient.length = 32) "recipient key must be 32 bytes"
  ensure (t.sender ≠ t.recipient) "sender and recipient must differ"
  ensure (0 < t.amount) "transfer amount must be positive"
  ensure (0 ≤ t.nonce) "nonce must be non-negative"
  ensure (MINIMUM_GAS_FEE ≤ t.gas_fee) "gas fee below minimum"
  ensure (Transaction.verify_signature dumps ed (Transaction.transfer t))
    "invalid transfer signature"

def validate_coinbase_format (cb : Coinbase) (expected_height : Int) :
    Except String Unit := do
  ensure (cb.recipient.length = 32) "coinbase recipient must be 32 bytes"
  ensure (cb.height = expected_height) "coinbase height mismatch"
  ensure (cb.amount = block_reward expected_height)
    "coinbase amount mismatch"

/-- `validate_transaction_format(tx, expected_height)` (the Python default
`expected_height=0` is passed explicitly by the mempool call site). -/
def validate_transaction_format (tx : Transaction) (expected_height : Int) :
    Except String Unit :=
  match tx with
  | Transaction.post p => validate_post_format dumps ed p
  | Transaction.endorse e => validate_endorse_format dumps ed e
  | Transaction.transfer t => validate_transfer_format dumps ed t
  | Transaction.coinbase cb => validate_coinbase_format cb expected_height

def validate_post_state (p : Post) (state : WorldState)
    (known_posts : List Bytes) : Except String Unit := do
  match alookup state p.author with
  | none => Except.error "author account does not exist"
  | some account => do
      ensure (p.nonce = account.nonce) "nonce mismatch"
      ensure (p.gas_fee ≤ account.balance) "insufficient balance for gas fee"
      ensure (match p.reply_to with
              | none => true
              | some r => r ∈ known_posts) "reply_to references unknown post"

def validate_endorse_state (e : Endorse) (state : WorldState)
    (known_posts : List Bytes) : Except String Unit := do
  match alookup state e.author with
  | none => Except.error "author account does not exist"
  | some account => do
      ensure (e.nonce = account.nonce) "nonce mismatch"
      ensure (e.gas_fee + e.amount ≤ account.balance)
        "insufficient balance for gas plus tip"
      ensure (e.target ∈ known_posts) "endorsement target is not a known post"

def validate_transfer_state (t : Transfer) (state : WorldState) :
    Except String Unit := do
  match alookup state t.sender with
  | none => Except.error "sender account does not exist"
  | some account => do
      ensure (t.nonce = account.nonce) "nonce mismatch"
      ensure (t.amount + t.gas_fee ≤ account.balance)
        "insufficient balance for transfer plus gas"

/-- `validate_transaction_state(tx, state, known_posts)` (coinbase has no
state preconditions). -/
def validate_transaction_state (tx : Transaction) (state : WorldState)
    (known_posts : List Bytes) : Except String Unit :=
  match tx with
  | Transaction.post p => validate_post_state p state known_posts
  | Transaction.endorse e => validate_endorse_state e state known_posts
  | Transaction.transfer t => validate_transfer_state t state
  | Transaction.coinbase _ => Except.ok ()

/-- `compute_expected_difficulty(chain, height)`.  Result `none` stands for
the `AttributeError` Python would raise reading `.header` of a missing block
in the non-boundary branch (never reached from `validate_block`, which has
already pinned `height` to `chain.height + 1`). -/
def compute_expected_difficulty (c : Blockchain) (height : Int) :
    Option Int :=
  if height = 0 then some GENESIS_DIFFICULTY
  else if Int.emod height DIFFICULTY_ADJUSTMENT_WINDOW ≠ 0 then
    (c.get_block_by_height (height - 1)).map (fun b => b.header.difficulty)
  else
    match c.get_block_by_height (height - DIFFICULTY_ADJUSTMENT_WINDOW),
        c.get_block_by_height (height - 1) with
    | some window_start, some window_end =>
        let actual0 := window_end.header.timestamp -
          window_start.header.timestamp
        let actual_time := if actual0 ≤ 0 then 1 else actual0
        let expected_time := DIFFICULTY_ADJUSTMENT_WINDOW * BLOCK_TIME_TARGET
        let ratio := pyDivFloat expected_time actual_time
        let ratio := Frac.fmax { num := 1, den := 4 }
          (Frac.fmin (Frac.ofInt MAX_DIFFICULTY_ADJUSTMENT) ratio)
        some (max 1 (pyTrunc (pyMulIntFloat window_end.header.difficulty ratio)))
    | _, _ => some GENESIS_DIFFICULTY

/-- The working data of the per-transaction loop in `validate_block`. -/
structure TxLoopState : Type where
  working_state : WorldState
  working_posts : List Bytes
  working_authors : List (Bytes × Bytes)
  seen_hashes : List Bytes
deriving DecidableEq

/-- The target author an endorsement tip resolves to
(`working_authors.get(tx.target)` when `tx.amount > 0`). -/
def resolveTarget (tx : Transaction) (authors : List (Bytes × Bytes)) :
    Option Bytes :=
  match tx with
  | Transaction.endorse e =>
      if 0 < e.amount then alookup authors e.target else none
  | _ => none

/-- Steps 9a-9e of block validation: iterate the transactions in order over
the working copies. -/
def validateTxsLoop (miner : Bytes) (height : Int)
    (txIndex : List (Bytes × Bytes)) :
    List Transaction → TxLoopState → Except String TxLoopState
  | [], st => Except.ok st
  | tx :: rest, st => do
      let txh := tx.tx_hash sha dumps
      ensure (!(txh ∈ st.seen_hashes) && (alookup txIndex txh).isNone)
        "duplicate transaction"
      validate_transaction_format dumps ed tx height
      (if tx.isCoinbase then Except.ok ()
       else validate_transaction_state tx st.working_state st.working_posts)
      let target_author := resolveTarget tx st.working_authors
      let ws := apply_transaction st.working_state tx miner target_author
      let wpa :=
        match tx with
        | Transaction.post p =>
            (sadd st.working_posts txh, aset st.working_authors txh p.author)
        | _ => (st.working_posts, st.working_authors)
      validateTxsLoop miner height txIndex rest
        { working_state := ws, working_posts := wpa.1,
          working_authors := wpa.2,
          seen_hashes := sadd st.seen_hashes txh }

/-- `validate_block(block, chain, current_time)`: the twelve checks.
(The Python locals `header`, `expected_prev`, `recent`, `expected_diff` are
inlined.) -/
def validate_block (b : Block) (c : Blockchain) (current_time : Int) :
    Except String Unit := do
  ensure (b.header.version = PROTOCOL_VERSION) "unsupported version"
  ensure (b.header.height = c.height + 1) "height mismatch"
  ensure (b.header.prev_hash =
      (match c.tip with
       | some tb => tb.block_hash sha dumps
       | none => zero32)) "prev hash does not match tip"
  (if 0 ≤ c.height then
    ensure ((c.get_recent_timestamps MEDIAN_TIME_BLOCK_COUNT).isEmpty ||
        Frac.lt (median (c.get_recent_timestamps MEDIAN_TIME_BLOCK_COUNT))
          (Frac.ofInt b.header.timestamp))
      "timestamp not above median of recent blocks"
   else Except.ok ())
  ensure (b.header.timestamp ≤ current_time + MAX_FUTURE_TIMESTAMP)
    "timestamp too far in the future"
  (match compute_expected_difficulty c b.header.height with
   | none => Except.error "difficulty unavailable"
   | some expected_diff =>
       ensure (b.header.difficulty = expected_diff) "difficulty mismatch")
  ensure (b.meets_difficulty sha dumps) "block does not meet difficulty target"
  ensure (b.header.tx_count = (b.transactions.length : Int))
    "tx count does not match transaction list"
  ensure (!b.transactions.isEmpty) "block has no transactions"
  match b.transactions with
  | [] => Except.error "block has no transactions"
  | tx0 :: rest =>
      match tx0 with
      | Transaction.coinbase cb => do
          validate_coinbase_format cb b.header.height
          ensure (cb.recipient = b.header.miner)
            "coinbase recipient must match block miner"
          ensure (rest.all (fun tx => !tx.isCoinbase))
            "only one coinbase per block"
          let stF ← validateTxsLoop sha dumps ed b.header.miner
            b.header.height c.tx_index b.transactions
            { working_state := c.state, working_posts := c.known_posts,
              working_authors := c.post_authors, seen_hashes := [] }
          ensure (b.header.tx_merkle_root = b.compute_tx_merkle_root sha dumps)
            "tx merkle root mismatch"
          ensure (b.header.state_root = state_root sha dumps stF.working_state)
            "state root mismatch"
          ensure (b.serialized_size dumps ≤ MAX_BLOCK_SIZE)
            "block exceeds maximum size"
      | _ => Except.error "first transaction must be coinbase"

/-! ### Chain mutation (src/jiji/core/chain.py) -/

/-- The per-transaction body of `_apply_block`: index the transaction,
register posts, resolve the endorsement recipient from the (updated)
`post_authors`, and apply to the real state. -/
def applyBlockTxs (miner : Bytes) (block_hash : Bytes) :
    List Transaction → Blockchain → Blockchain
  | [], c => c
  | tx :: rest, c =>
      let txh := tx.tx_hash sha dumps
      let c1 := { c with tx_index := aset c.tx_index txh block_hash }
      let c2 :=
        match tx with
        | Transaction.post p =>
            { c1 with known_posts := sadd c1.known_posts txh,
                      post_authors := aset c1.post_authors txh p.author }
        | _ => c1
      let target_author := resolveTarget tx c2.post_authors
      let c3 :=
        { c2 with
          state := apply_transaction c2.state tx miner target_author }
      applyBlockTxs miner block_hash rest c3

/-- `_apply_block(block)`: insert the block, append to the main chain, then
walk the transactions. -/
def apply_block (c : Blockchain) (b : Block) : Blockchain :=
  let bh := b.block_hash sha dumps
  applyBlockTxs sha dumps b.header.miner bh b.transactions
    { c with blocks := aset c.blocks bh b,
             main_chain := c.main_chain ++ [bh] }

/-- `add_block(block, current_time)` as a pure function: validate, then
commit. -/
def add_block (c : Blockchain) (b : Block) (current_time : Int) :
    Except String Blockchain := do
  validate_block sha dumps ed b c current_time
  pure (apply_block sha dumps c b)

/-- Lift a pure `Except` result into the state-and-exception monad. -/
def liftE {σ α : Type} (x : Except String α) :
    ExceptT String (StateM σ) α :=
  ExceptT.mk (fun s => (x, s))

/-- `add_block` as the method acts on the live object: `validate_block` is a
pure read of the chain (it works on cloned copies), and `_apply_block` is
the only mutation, performed after validation succeeds. -/
def add_block_m (b : Block) (current_time : Int) :
    ExceptT String (StateM Blockchain) Unit := do
  let c ← ExceptT.lift MonadState.get
  liftE (validate_block sha dumps ed b c current_time)
  ExceptT.lift (MonadState.set (apply_block sha dumps c b))

/-- The genesis block built by `initialize_genesis` (before mining).  At
`GENESIS_DIFFICULTY = 1` the target is `2^256 - 1`, which every 32-byte
SHA-256 digest satisfies, so the trivial mining loop exits at once with
`nonce = 0`; the model constructs the block with `nonce = 0` directly. -/
def genesis_block (miner_pubkey : Bytes) (timestamp : Int) : Block :=
  let reward := block_reward 0
  let cb : Coinbase :=
    { recipient := miner_pubkey, amount := reward, height := 0 }
  let tx_root :=
    merkle_root sha [(Transaction.coinbase cb).tx_hash sha dumps]
  let temp_state :=
    apply_transaction [] (Transaction.coinbase cb) miner_pubkey none
  let s_root := state_root sha dumps temp_state
  { header :=
      { version := PROTOCOL_VERSION, height := 0, prev_hash := zero32,
        timestamp := timestamp, miner := miner_pubkey,
        difficulty := GENESIS_DIFFICULTY, nonce := 0,
        tx_merkle_root := tx_root, state_root := s_root, tx_count := 1 },
    transactions := [Transaction.coinbase cb] }

/-- `initialize_genesis(miner_pubkey, timestamp)`. -/
def initialize_genesis (c : Blockchain) (miner_pubkey : Bytes)
    (timestamp : Int) : Except String Blockchain :=
  if !c.main_chain.isEmpty then Except.error "chain already initialized"
  else Except.ok (apply_block sha dumps c (genesis_block sha dumps miner_pubkey timestamp))

/-- Chains reachable from an empty `Blockchain` by `initialize_genesis`
followed by successful `add_block` calls, together with the list of blocks
applied so far (genesis first). -/
inductive ReachableT : Blockchain → List Block → Prop
  | genesis (miner_pubkey : Bytes) (timestamp : Int) (c : Blockchain) :
      initialize_genesis sha dumps emptyChain miner_pubkey timestamp =
        Except.ok c →
      ReachableT c [genesis_block sha dumps miner_pubkey timestamp]
  | step {c : Blockchain} {bs : List Block} {b : Block} {t : Int}
      {c2 : Blockchain} :
      ReachableT c bs → add_block sha dumps ed c b t = Except.ok c2 →
      ReachableT c2 (bs ++ [b])

end Model

/-! ### Mempool (src/jiji/mining/mempool.py) -/

structure Mempool : Type where
  max_size : Nat
  txs : List (Bytes × Transaction)
deriving DecidableEq

/-- `_find_lowest_fee()`: scan the entries in order, keeping the first entry
whose fee is strictly below the running minimum. -/
def find_lowest_fee (l : List (Bytes × Transaction)) :
    Option Bytes × Option Int :=
  l.foldl
    (fun acc kv =>
      match acc.2 with
      | none => (some kv.1, some kv.2.gas_fee)
      | some f => if kv.2.gas_fee < f then (some kv.1, some kv.2.gas_fee)
                  else acc)
    (none, none)

section Model

variable (sha : List Nat → List Nat)
variable (dumps : Json → List Nat)
variable (ed : List Nat → List Nat → List Nat → Except CryptoError Unit)

/-- `Mempool.add(tx)` as a pure function on the pool contents (the chain is
the live chain the pool references): validate, optionally evict the
lowest-fee entry, insert, and return the hash. -/
def Mempool.add (mp : Mempool) (c : Blockchain) (tx : Transaction) :
    Except String (Mempool × Bytes) := do
  ensure (!tx.isCoinbase) "coinbase transactions cannot be added to mempool"
  let txh := tx.tx_hash sha dumps
  ensure ((alookup mp.txs txh).isNone) "transaction already in mempool"
  ensure ((alookup c.tx_index txh).isNone) "transaction already confirmed"
  validate_transaction_format dumps ed tx 0
  validate_transaction_state tx c.state c.known_posts
  let txs2 ←
    if mp.max_size ≤ mp.txs.length then
      match find_lowest_fee mp.txs with
      | (some lowest_hash, some lowest_fee) =>
          if lowest_fee < tx.gas_fee then pure (aerase mp.txs lowest_hash)
          else Except.error "mempool full and fee too low for eviction"
      | _ => Except.error "mempool full and fee too low for eviction"
    else pure mp.txs
  pure ({ mp with txs := aset txs2 txh tx }, txh)

/-- `Mempool.add(tx)` as the method acts on the live pool: every raise
happens before the first mutation, the eviction `del` strictly precedes the
insertion, and the hash is returned last. -/
def Mempool.add_m (c : Blockchain) (tx : Transaction) :
    ExceptT String (StateM Mempool) Bytes := do
  liftE (ensure (!tx.isCoinbase)
    "coinbase transactions cannot be added to mempool")
  let txh := tx.tx_hash sha dumps
  let mp0 ← ExceptT.lift MonadState.get
  liftE (ensure ((alookup mp0.txs txh).isNone)
    "transaction already in mempool")
  liftE (ensure ((alookup c.tx_index txh).isNone)
    "transaction already confirmed")
  liftE (validate_transaction_format dumps ed tx 0)
  liftE (validate_transaction_state tx c.state c.known_posts)
  (if mp0.max_size ≤ mp0.txs.length then
    match find_lowest_fee mp0.txs with
    | (some lowest_hash, some lowest_fee) =>
        if lowest_fee < tx.gas_fee then
          ExceptT.lift (MonadState.modifyGet (fun mp =>
            ((), { mp with txs := aerase mp.txs lowest_hash })))
        else
          liftE (Except.error "mempool full and fee too low for eviction")
    | _ => liftE (Except.error "mempool full and fee too low for eviction")
   else pure ())
  ExceptT.lift (MonadState.modifyGet (fun mp =>
    ((), { mp with txs := aset mp.txs txh tx })))
  pure txh

end Model

/-! ## Concrete instantiations of the abstract primitives

Used to evaluate the theorems on explicit inputs.  `jEncF` is a simple
length-prefixed encoder standing in for `json.dumps` (the fuel bounds the
nesting depth, which is at most three for every dictionary the code
builds); `shaW` is a compression stand-in for SHA-256 whose outputs decode
below `2^200`; `shaInjW` is an injective stand-in. -/

def jEncF : Nat → Json → List Nat
  | 0, _ => [0]
  | fuel + 1, j =>
      match j with
      | Json.null => [1]
      | Json.int n => [2, n.natAbs, if n < 0 then 1 else 0]
      | Json.str s => 3 :: s.length :: (s.toList.map Char.toNat)
      | Json.bytes b => 4 :: b.length :: b
      | Json.obj fs =>
          5 :: fs.length ::
            fs.foldr
              (fun kv acc =>
                (3 :: kv.1.length :: (kv.1.toList.map Char.toNat)) ++
                  jEncF fuel kv.2 ++ acc) []
      | Json.arr es =>
          6 :: es.length :: es.foldr (fun e acc => jEncF fuel e ++ acc) []

def dumpsW : Json → List Nat := jEncF 8

def shaW : List Nat → List Nat :=
  fun l => [(l.foldl (fun a b => a * 1000003 + b + 1) 7) % 2 ^ 200]

def shaInjW : List Nat → List Nat := fun l => 0 :: l

def edOkW : List Nat → List Nat → List Nat → Except CryptoError Unit :=
  fun _ _ _ => Except.ok ()

def edErrW : List Nat → List Nat → List Nat → Except CryptoError Unit :=
  fun _ _ _ => Except.error CryptoError.valueError

def postW : Post :=
  { author := zero32, nonce := 0, timestamp := 0, body := "hello",
    reply_to := none, gas_fee := 1, signature := [1] }


/-! ### Definitions supporting the difficulty analysis (claim C5) -/

/-- The difficulty formula as the claim states it, in exact rational
arithmetic: `max(1, floor(prev · clamp(1500/actual)))`. -/
def specDifficultyRat (c : Blockchain) (height : Int) : Option Int :=
  if height = 0 then some GENESIS_DIFFICULTY
  else if Int.emod height DIFFICULTY_ADJUSTMENT_WINDOW ≠ 0 then
    (c.get_block_by_height (height - 1)).map (fun b => b.header.difficulty)
  else
    match c.get_block_by_height (height - DIFFICULTY_ADJUSTMENT_WINDOW),
        c.get_block_by_height (height - 1) with
    | some window_start, some window_end =>
        let actual :=
          max 1 (window_end.header.timestamp - window_start.header.timestamp)
        let ratio : Frac := Frac.fmax { num := 1, den := 4 }
          (Frac.fmin (Frac.ofInt MAX_DIFFICULTY_ADJUSTMENT)
            { num := 1500, den := actual })
        some (max 1 (Frac.floor
          (Frac.mul (Frac.ofInt window_end.header.difficulty) ratio)))
    | _, _ => some GENESIS_DIFFICULTY

def diffHdr (ts diff : Int) : BlockHeader :=
  { version := 1, height := 0, prev_hash := [], timestamp := ts, miner := [],
    difficulty := diff, nonce := 0, tx_merkle_root := [], state_root := [],
    tx_count := 0 }

def diffB0 : Block := { header := diffHdr 0 1, transactions := [] }

def diffB99 : Block := { header := diffHdr 550 11, transactions := [] }

/-- A chain whose adjustment window spans 550 seconds ending in
difficulty 11 (only heights 0 and 99 are ever dereferenced). -/
def diffChainW : Blockchain :=
  { blocks := [([0], diffB0), ([1], diffB99)],
    main_chain := [0] :: List.replicate 99 [1],
    state := [], tx_index := [], known_posts := [], post_authors := [] }


/-! ## Concrete runs used by the chain witnesses -/

/-- The chain after `initialize_genesis` at concrete primitives. -/
def witGenesis : Blockchain :=
  apply_block shaW dumpsW emptyChain (genesis_block shaW dumpsW zero32 0)

def witCb1 : Coinbase := { recipient := zero32, amount := 50, height := 1 }

/-- A height-1 block that `add_block` accepts on `witGenesis`. -/
def witB1 : Block :=
  { header :=
      { version := 1, height := 1,
        prev_hash := Block.block_hash shaW dumpsW
          (genesis_block shaW dumpsW zero32 0),
        timestamp := 1, miner := zero32, difficulty := 1, nonce := 0,
        tx_merkle_root := merkle_root shaW
          [(Transaction.coinbase witCb1).tx_hash shaW dumpsW],
        state_root := state_root shaW dumpsW
          (apply_transaction witGenesis.state (Transaction.coinbase witCb1)
            zero32 none),
        tx_count := 1 },
    transactions := [Transaction.coinbase witCb1] }

/-- `witB1` with its coinbase reward doctored to 9999 (spec scenario:
"wrong coinbase amount"). -/
def witBadB1 : Block :=
  { witB1 with transactions :=
      [Transaction.coinbase { recipient := zero32, amount := 9999, height := 1 }] }


/-! ### Derived observations used by the invariant claims -/

/-- A placeholder block for positional access in proofs. -/
def blockD : Block :=
  { header :=
      { version := 0, height := 0, prev_hash := [], timestamp := 0,
        miner := [], difficulty := 0, nonce := 0, tx_merkle_root := [],
        state_root := [], tx_count := 0 },
    transactions := [] }

/-- The total of all account balances. -/
def sumBal (s : WorldState) : Int :=
  (s.map (fun kv => kv.2.balance)).sum

/-- The nonce an account reads as (0 for a nonexistent account, which is
also the value it is created with). -/
def nonceOf (s : WorldState) (k : Bytes) : Int :=
  match alookup s k with
  | some a => a.nonce
  | none => 0

/-- The amount a transaction mints (nonzero only for a coinbase). -/
def cbAmount : Transaction → Int
  | Transaction.coinbase cb => cb.amount
  | _ => 0

/-- The block's coinbase amount (its first transaction's reward). -/
def coinbaseAmount (b : Block) : Int :=
  match b.transactions with
  | Transaction.coinbase cb :: _ => cb.amount
  | _ => 0

/-- Every known post has a recorded author. -/
def Covered (posts : List Bytes) (authors : List (Bytes × Bytes)) : Prop :=
  ∀ h ∈ posts, (alookup authors h).isSome = true

/-- Every account balance is nonnegative. -/
def NonnegB (s : WorldState) : Prop :=
  ∀ kv ∈ s, 0 ≤ kv.2.balance

/-! ### Concrete mempool scenario (claim C6) -/

/-- A chain holding one funded account (balance 100, nonce 0). -/
def chainW : Blockchain :=
  { blocks := [], main_chain := [], state := [(zero32, { balance := 100, nonce := 0 })],
    tx_index := [], known_posts := [], post_authors := [] }

/-- The resident low-fee transfer (fee 1). -/
def poolTxW : Transfer :=
  { sender := zero32, recipient := 1 :: zero32.tail, amount := 1, nonce := 3,
    gas_fee := 1, signature := [2] }

/-- A full mempool of capacity 1. -/
def mpW : Mempool :=
  { max_size := 1, txs := [([7], Transaction.transfer poolTxW)] }

/-- The incoming higher-fee transfer (fee 5), valid against `chainW`. -/
def txW : Transaction :=
  Transaction.transfer
    { sender := zero32, recipient := 1 :: zero32.tail, amount := 1, nonce := 0,
      gas_fee := 5, signature := [1] }

/-- The post-step working data of the validation loop. -/
def loopStep (sha : List Nat → List Nat) (dumps : Json → List Nat)
    (miner : Bytes) (tx : Transaction) (st : TxLoopState) : TxLoopState :=
  { working_state := apply_transaction st.working_state tx miner
      (resolveTarget tx st.working_authors),
    working_posts :=
      match tx with
      | Transaction.post _ => sadd st.working_posts (tx.tx_hash sha dumps)
      | _ => st.working_posts,
    working_authors :=
      match tx with
      | Transaction.post p => aset st.working_authors (tx.tx_hash sha dumps) p.author
      | _ => st.working_authors,
    seen_hashes := sadd st.seen_hashes (tx.tx_hash sha dumps) }

/-! ## Helper lemmas -/

theorem bind_ok {ε α β : Type} {x : Except ε α} {f : α → Except ε β} {u : β}
    (h : x >>= f = Except.ok u) : ∃ a, x = Except.ok a ∧ f a = Except.ok u := by
  cases x with
  | ok a => exact ⟨a, rfl, h⟩
  | error e =>
      simp only [Bind.bind, Except.bind] at h
      exact absurd h (by simp)

theorem ensure_ok {c : Bool} {m : String} {u : Unit}
    (h : ensure c m = Except.ok u) : c = true := by
  by_cases hc : c = true
  · exact hc
  · simp only [ensure, hc] at h
    simp at h

theorem ensure_true {m : String} : ensure true m = Except.ok () := rfl

theorem shaInjW_inj : ∀ a b : List Nat, shaInjW a = shaInjW b → a = b := by
  intro a b h
  simpa [shaInjW] using h


theorem validate_coinbase_format_ok {cb : Coinbase} {eh : Int} {u : Unit}
    (h : validate_coinbase_format cb eh = Except.ok u) :
    cb.recipient.length = 32 ∧ cb.height = eh ∧
      cb.amount = block_reward eh := by
  unfold validate_coinbase_format at h
  rcases bind_ok h with ⟨u1, h1, h⟩
  rcases bind_ok h with ⟨u2, h2, h3⟩
  exact ⟨of_decide_eq_true (ensure_ok h1), of_decide_eq_true (ensure_ok h2),
    of_decide_eq_true (ensure_ok h3)⟩

/-- The facts that a successful `validate_block` certifies (those the chain
invariants below consume). -/
theorem validate_block_ok_facts
    {sha : List Nat → List Nat} {dumps : Json → List Nat}
    {ed : List Nat → List Nat → List Nat → Except CryptoError Unit}
    {b : Block} {c : Blockchain} {t : Int} {u : Unit}
    (h : validate_block sha dumps ed b c t = Except.ok u) :
    b.header.version = PROTOCOL_VERSION ∧
    b.header.height = c.height + 1 ∧
    b.header.prev_hash =
      (match c.tip with
       | some tb => tb.block_hash sha dumps
       | none => zero32) ∧
    ∃ cb rest stF,
      b.transactions = Transaction.coinbase cb :: rest ∧
      cb.amount = block_reward b.header.height ∧
      cb.recipient = b.header.miner ∧
      rest.all (fun tx => !tx.isCoinbase) = true ∧
      validateTxsLoop sha dumps ed b.header.miner b.header.height c.tx_index
        b.transactions
        { working_state := c.state, working_posts := c.known_posts,
          working_authors := c.post_authors, seen_hashes := [] } =
        Except.ok stF := by
  unfold validate_block at h
  rcases bind_ok h with ⟨u1, hver, h⟩
  rcases bind_ok h with ⟨u2, hh, h⟩
  rcases bind_ok h with ⟨u3, hprev, h⟩
  rcases bind_ok h with ⟨u4, hmed, h⟩
  rcases bind_ok h with ⟨u5, hfut, h⟩
  rcases bind_ok h with ⟨u6, hdiff, h⟩
  rcases bind_ok h with ⟨u7, hpow, h⟩
  rcases bind_ok h with ⟨u8, hcount, h⟩
  rcases bind_ok h with ⟨u9, hne, h⟩
  refine ⟨of_decide_eq_true (ensure_ok hver),
    of_decide_eq_true (ensure_ok hh),
    of_decide_eq_true (ensure_ok hprev), ?_⟩
  cases htx : b.transactions with
  | nil => rw [htx] at h; exact absurd h (by simp)
  | cons tx0 rest =>
      rw [htx] at h
      cases tx0 with
      | post p => exact absurd h (by simp)
      | endorse e => exact absurd h (by simp)
      | transfer tr => exact absurd h (by simp)
      | coinbase cb =>
          rcases bind_ok h with ⟨u10, hcb, h⟩
          rcases bind_ok h with ⟨u11, hrecip, h⟩
          rcases bind_ok h with ⟨u12, honecb, h⟩
          rcases bind_ok h with ⟨stF, hloop, h⟩
          refine ⟨cb, rest, stF, rfl, ?_, ?_, ensure_ok honecb, ?_⟩
          · exact (validate_coinbase_format_ok hcb).2.2
          · exact of_decide_eq_true (ensure_ok hrecip)
          · exact hloop

/-! ## C9: post format validation accepts exactly body lengths 1..300 -/

/-- C9: for a Post that satisfies every other format check (32-byte author,
non-negative nonce, gas fee at least 1, `reply_to` null or 32 bytes, valid
signature), `validate_post_format` succeeds if and only if the body length
is between 1 and 300 characters inclusive (so a 300-character body passes
while an empty or 301-character body fails). -/
theorem c9_post_format_iff_body_length
    (dumps : Json → List Nat)
    (ed : List Nat → List Nat → List Nat → Except CryptoError Unit)
    (p : Post)
    (hauthor : p.author.length = 32) (hnonce : 0 ≤ p.nonce)
    (hgas : MINIMUM_GAS_FEE ≤ p.gas_fee)
    (hreply : (match p.reply_to with
               | none => true
               | some r => decide (r.length = 32)) = true)
    (hsig : Transaction.verify_signature dumps ed (Transaction.post p) = true) :
    validate_post_format dumps ed p = Except.ok () ↔
      1 ≤ p.body.length ∧ p.body.length ≤ 300 := by
  constructor
  · intro h
    unfold validate_post_format at h
    rcases bind_ok h with ⟨u1, h1, h⟩
    rcases bind_ok h with ⟨u2, h2, h⟩
    have hb1 := of_decide_eq_true (ensure_ok h1)
    have hb2 := of_decide_eq_true (ensure_ok h2)
    exact ⟨hb1, hb2⟩
  · rintro ⟨hb1, hb2⟩
    unfold validate_post_format
    simp only [POST_BODY_LIMIT] at *
    simp [ensure, hb1, hb2, hauthor, hnonce, hgas, hreply, hsig]
    rfl

/-- C9 witness: a concrete Post meeting the side conditions, at concrete
primitives. -/
theorem c9_witness :
    validate_post_format dumpsW edOkW postW = Except.ok () ↔
      1 ≤ postW.body.length ∧ postW.body.length ≤ 300 :=
  c9_post_format_iff_body_length dumpsW edOkW postW (by decide) (by decide)
    (by decide) (by decide) (by rfl)

/-! ## C8: signature verification is total and rejects malformed input -/

/-- C8: for every signed transaction (Post, Endorse or Transfer) with
arbitrary bytes in its key and signature fields, `verify_signature` is a
total boolean function (the repository wrapper catches both exceptions the
Ed25519 library can raise, `InvalidSignature` and `ValueError`, so no
exception reaches the caller — totality is expressed by the `Bool` return
type over every possible library behavior `ed`); it returns `false`
whenever the signature field is empty, and whenever the library rejects the
public-key or signature bytes as malformed (raises either exception). -/
theorem c8_verify_signature_safe
    (dumps : Json → List Nat)
    (ed : List Nat → List Nat → List Nat → Except CryptoError Unit)
    (tx : Transaction) (hnc : tx.isCoinbase = false) :
    (tx.signature = [] → tx.verify_signature dumps ed = false) ∧
    (∀ e : CryptoError,
      ed tx.signer_key (canonicalize dumps tx.to_dict ["signature"])
          tx.signature = Except.error e →
      tx.verify_signature dumps ed = false) := by
  constructor
  · intro hempty
    cases tx with
    | post p => simp [Transaction.verify_signature, Transaction.signature] at hempty ⊢; simp [hempty]
    | endorse e => simp [Transaction.verify_signature, Transaction.signature] at hempty ⊢; simp [hempty]
    | transfer t => simp [Transaction.verify_signature, Transaction.signature] at hempty ⊢; simp [hempty]
    | coinbase c => simp [Transaction.isCoinbase] at hnc
  · intro e herr
    cases tx with
    | post p =>
        simp only [Transaction.verify_signature]
        split
        · rfl
        · simp only [verify]
          rw [show ed (Transaction.post p).signer_key
              (canonicalize dumps (Transaction.post p).to_dict ["signature"])
              (Transaction.post p).signature = Except.error e from herr]
          cases e <;> rfl
    | endorse e2 =>
        simp only [Transaction.verify_signature]
        split
        · rfl
        · simp only [verify]
          rw [show ed (Transaction.endorse e2).signer_key
              (canonicalize dumps (Transaction.endorse e2).to_dict ["signature"])
              (Transaction.endorse e2).signature = Except.error e from herr]
          cases e <;> rfl
    | transfer t =>
        simp only [Transaction.verify_signature]
        split
        · rfl
        · simp only [verify]
          rw [show ed (Transaction.transfer t).signer_key
              (canonicalize dumps (Transaction.transfer t).to_dict ["signature"])
              (Transaction.transfer t).signature = Except.error e from herr]
          cases e <;> rfl
    | coinbase c => simp [Transaction.isCoinbase] at hnc

/-- C8 witness: a concrete transfer whose signature bytes the library
rejects is reported invalid, not raised. -/
theorem c8_witness :
    Transaction.verify_signature dumpsW edErrW
      (Transaction.transfer
        { sender := zero32, recipient := 1 :: zero32.tail, amount := 1,
          nonce := 0, gas_fee := 1, signature := [9] }) = false :=
  (c8_verify_signature_safe dumpsW edErrW _ (by decide)).2
    CryptoError.valueError rfl

/-! ## C5: difficulty retargeting

The claim asserts the boundary adjustment is computed in exact rational
arithmetic.  The code computes `ratio = expected_time / actual_time` and
`difficulty * ratio` in Python floats (binary64); the results differ from
exact rational arithmetic: at `prev_difficulty = 11` and window span 550 s
the exact value is `⌊11 · (1500/550)⌋ = 30` but the float computation gives
`int(11 * (1500/550)) = 29`.  `specDifficultyRat` below is written from the
claim's words (exact rational arithmetic) for comparison. -/

/-- C5 counterexample: at height 100 over `diffChainW` the code returns 29
while the claim's exact-rational formula returns 30, so the claim as stated
is false. -/
theorem c5_counterexample :
    compute_expected_difficulty diffChainW 100 = some 29 ∧
    specDifficultyRat diffChainW 100 = some 30 ∧
    compute_expected_difficulty diffChainW 100 ≠
      specDifficultyRat diffChainW 100 := by
  refine ⟨by decide, by decide, by decide⟩

/-- C5 amended: `compute_expected_difficulty(chain, h)` returns
`GENESIS_DIFFICULTY` for `h = 0`; for `h` not a multiple of 100 it returns
the difficulty of block `h-1`; and for `h` a positive multiple of 100 it
returns `max(1, int(prev_difficulty * ratio))` where
`actual = max(1, timestamp(h-1) - timestamp(h-100))` and
`ratio = 1500 / actual` clamped to `[1/4, 4]`, with the division and the
multiplication performed in IEEE-754 binary64 arithmetic
(round-to-nearest-even) and `int()` truncating toward zero. -/
theorem c5_amended_float_difficulty (c : Blockchain) (h : Int) :
    (h = 0 → compute_expected_difficulty c h = some GENESIS_DIFFICULTY) ∧
    (Int.emod h DIFFICULTY_ADJUSTMENT_WINDOW ≠ 0 →
      ∀ b, c.get_block_by_height (h - 1) = some b →
        compute_expected_difficulty c h = some b.header.difficulty) ∧
    (h ≠ 0 → Int.emod h DIFFICULTY_ADJUSTMENT_WINDOW = 0 →
      ∀ bs be, c.get_block_by_height (h - DIFFICULTY_ADJUSTMENT_WINDOW) = some bs →
        c.get_block_by_height (h - 1) = some be →
        compute_expected_difficulty c h =
          some (max 1 (pyTrunc (pyMulIntFloat be.header.difficulty
            (Frac.fmax { num := 1, den := 4 } (Frac.fmin (Frac.ofInt 4)
              (pyDivFloat 1500
                (max 1 (be.header.timestamp - bs.header.timestamp))))))))) := by
  refine ⟨?_, ?_, ?_⟩
  · intro h0
    simp [compute_expected_difficulty, h0]
  · intro hmod b hb
    have h0 : ¬h = 0 := by
      intro h0
      rw [h0] at hmod
      exact hmod (by decide)
    simp [compute_expected_difficulty, h0, hmod, hb]
  · intro h0 hmod bs be hbs hbe
    simp only [compute_expected_difficulty, h0, if_false, hmod, hbs, hbe,
      ne_eq, not_true_eq_false, ite_false, not_false_eq_true]
    have harg : (if be.header.timestamp - bs.header.timestamp ≤ 0 then 1
        else be.header.timestamp - bs.header.timestamp) =
        max 1 (be.header.timestamp - bs.header.timestamp) := by
      split <;> omega
    rw [harg]
    rfl

/-- C5 amended-claim witness: the boundary branch evaluated on the concrete
chain. -/
theorem c5_witness :
    compute_expected_difficulty diffChainW 100 =
      some (max 1 (pyTrunc (pyMulIntFloat diffB99.header.difficulty
        (Frac.fmax { num := 1, den := 4 } (Frac.fmin (Frac.ofInt 4)
          (pyDivFloat 1500
            (max 1 (diffB99.header.timestamp - diffB0.header.timestamp)))))))) :=
  (c5_amended_float_difficulty diffChainW 100).2.2 (by decide) (by decide)
    diffB0 diffB99 (by decide) (by decide)

/-! ## C10: the empty chain -/

/-- C10: a freshly constructed `Blockchain` has `height = -1` and no tip;
consequently any block that `add_block` accepts on it must carry
`header.height = 0` and `header.prev_hash` of 32 zero bytes. -/
theorem c10_empty_chain_first_block
    (sha : List Nat → List Nat) (dumps : Json → List Nat)
    (ed : List Nat → List Nat → List Nat → Except CryptoError Unit) :
    Blockchain.height emptyChain = -1 ∧
    Blockchain.tip emptyChain = none ∧
    (∀ b t c2, add_block sha dumps ed emptyChain b t = Except.ok c2 →
      b.header.height = 0 ∧ b.header.prev_hash = zero32) := by
  refine ⟨rfl, rfl, ?_⟩
  intro b t c2 hadd
  unfold add_block at hadd
  rcases bind_ok hadd with ⟨u, hv, _⟩
  have hf := validate_block_ok_facts hv
  constructor
  · have hh := hf.2.1
    simpa [emptyChain, Blockchain.height] using hh
  · have hp := hf.2.2.1
    simpa [emptyChain, Blockchain.tip] using hp

set_option maxRecDepth 20000 in
/-- C10 witness: at concrete primitives, the genesis-shaped block is
accepted by `add_block` on the empty chain, and indeed has height 0 and an
all-zero previous hash. -/
theorem c10_witness :
    Blockchain.height emptyChain = -1 ∧
    Blockchain.tip emptyChain = none ∧
    ((genesis_block shaW dumpsW zero32 0).header.height = 0 ∧
      (genesis_block shaW dumpsW zero32 0).header.prev_hash = zero32) :=
  ⟨(c10_empty_chain_first_block shaW dumpsW edOkW).1,
   (c10_empty_chain_first_block shaW dumpsW edOkW).2.1,
   (c10_empty_chain_first_block shaW dumpsW edOkW).2.2
     (genesis_block shaW dumpsW zero32 0) 0
     (apply_block shaW dumpsW emptyChain (genesis_block shaW dumpsW zero32 0))
     (by rfl)⟩

/-! ## C1: a failing add_block leaves the chain untouched -/

/-- C1: for every block, chain state and current time, if `add_block`
raises a validation error at any of its twelve validation steps, then the
chain's `blocks` map, `main_chain` sequence, world state, `tx_index`,
`known_posts` set and `post_authors` map are all exactly as they were
before the call (validation runs on cloned working copies; the only
mutation, `_apply_block`, happens after validation succeeds). -/
theorem c1_failed_add_block_preserves_chain
    (sha : List Nat → List Nat) (dumps : Json → List Nat)
    (ed : List Nat → List Nat → List Nat → Except CryptoError Unit)
    (b : Block) (c : Blockchain) (t : Int) (e : String) (c2 : Blockchain)
    (h : (add_block_m sha dumps ed b t).run c = (Except.error e, c2)) :
    c2 = c ∧ c2.blocks = c.blocks ∧ c2.main_chain = c.main_chain ∧
      c2.state = c.state ∧ c2.tx_index = c.tx_index ∧
      c2.known_posts = c.known_posts ∧ c2.post_authors = c.post_authors := by
  have hrun : (add_block_m sha dumps ed b t).run c =
      (match validate_block sha dumps ed b c t with
       | Except.ok _ => (Except.ok (), apply_block sha dumps c b)
       | Except.error e2 => (Except.error e2, c)) := by
    cases hv : validate_block sha dumps ed b c t with
    | ok u =>
        show (add_block_m sha dumps ed b t) c = _
        simp only [add_block_m, Bind.bind, ExceptT.bind, ExceptT.lift,
          ExceptT.mk, ExceptT.bindCont, StateT.bind, MonadState.get, getThe,
          MonadStateOf.get, StateT.get, liftE, hv, MonadState.set,
          MonadStateOf.set, StateT.set, Functor.map, StateT.map, pure,
          StateT.pure, Except.pure, Id.map_eq, Id.run]
    | error e2 =>
        show (add_block_m sha dumps ed b t) c = _
        simp only [add_block_m, Bind.bind, ExceptT.bind, ExceptT.lift,
          ExceptT.mk, ExceptT.bindCont, StateT.bind, MonadState.get, getThe,
          MonadStateOf.get, StateT.get, liftE, hv, MonadState.set,
          MonadStateOf.set, StateT.set, Functor.map, StateT.map, pure,
          StateT.pure, Except.pure, Id.map_eq, Id.run]
  rw [hrun] at h
  cases hv : validate_block sha dumps ed b c t with
  | ok u =>
      rw [hv] at h
      exact absurd (congrArg Prod.fst h) (by simp)
  | error e2 =>
      rw [hv] at h
      have h2 : c2 = c := (congrArg Prod.snd h).symm
      subst h2
      exact ⟨rfl, rfl, rfl, rfl, rfl, rfl, rfl⟩

/-! ## C6 machinery: association-list and lowest-fee lemmas -/

theorem alookup_aerase_none {V : Type} {l : List (Bytes × V)} {k k2 : Bytes}
    (h : alookup l k = none) : alookup (aerase l k2) k = none := by
  induction l with
  | nil => rfl
  | cons kv rest ih =>
      cases kv with
      | mk a b =>
        simp only [alookup] at h
        by_cases hk : a = k
        · simp [hk] at h
        · simp only [if_neg hk] at h
          simp only [aerase]
          by_cases hk2 : a = k2
          · simp only [if_pos hk2]
            exact h
          · simp only [if_neg hk2, alookup, if_neg hk]
            exact ih h

theorem aerase_length {V : Type} {l : List (Bytes × V)} {k : Bytes}
    (h : (alookup l k).isSome) : (aerase l k).length + 1 = l.length := by
  induction l with
  | nil => simp [alookup] at h
  | cons kv rest ih =>
      cases kv with
      | mk a b =>
        by_cases hk : a = k
        · simp [aerase, hk]
        · simp only [alookup, if_neg hk] at h
          simp only [aerase, if_neg hk, List.length_cons]
          rw [← ih h]

theorem aset_of_none {V : Type} {l : List (Bytes × V)} {k : Bytes} {v : V}
    (h : alookup l k = none) : aset l k v = l ++ [(k, v)] := by
  induction l with
  | nil => rfl
  | cons kv rest ih =>
      cases kv with
      | mk a b =>
        by_cases hk : a = k
        · simp [alookup, hk] at h
        · simp only [alookup, if_neg hk] at h
          simp [aset, if_neg hk, ih h]

theorem alookup_isSome_of_mem {V : Type} {l : List (Bytes × V)} {k : Bytes}
    {v : V} (h : (k, v) ∈ l) : (alookup l k).isSome := by
  induction l with
  | nil => simp at h
  | cons kv rest ih =>
      cases kv with
      | mk a b =>
        rcases List.mem_cons.mp h with heq | hmem
        · cases heq
          simp [alookup]
        · by_cases hk : a = k
          · simp [alookup, hk]
          · simp only [alookup, if_neg hk]
            exact ih hmem

theorem flf_aux (l : List (Bytes × Transaction)) :
    ∀ (lh : Bytes) (lf : Int),
      ∃ lh2 lf2,
        l.foldl
          (fun acc kv =>
            match acc.2 with
            | none => (some kv.1, some kv.2.gas_fee)
            | some f => if kv.2.gas_fee < f then (some kv.1, some kv.2.gas_fee)
                        else acc)
          (some lh, some lf) = (some lh2, some lf2) ∧
        ((lh2 = lh ∧ lf2 = lf) ∨ ∃ tx2, (lh2, tx2) ∈ l ∧ tx2.gas_fee = lf2) ∧
        lf2 ≤ lf ∧ (∀ kv ∈ l, lf2 ≤ kv.2.gas_fee) := by
  induction l with
  | nil =>
      intro lh lf
      exact ⟨lh, lf, rfl, Or.inl ⟨rfl, rfl⟩, le_refl lf, by simp⟩
  | cons kv rest ih =>
      intro lh lf
      rw [List.foldl_cons]
      by_cases hlt : kv.2.gas_fee < lf
      · have step : (match ((some lh : Option Bytes), (some lf : Option Int)).2 with
            | none => (some kv.1, some kv.2.gas_fee)
            | some f => if kv.2.gas_fee < f then (some kv.1, some kv.2.gas_fee)
                        else ((some lh : Option Bytes), (some lf : Option Int))) =
            (some kv.1, some kv.2.gas_fee) := by simp [hlt]
        rw [step]
        rcases ih kv.1 kv.2.gas_fee with ⟨lh2, lf2, hfold, hmem, hle, hall⟩
        refine ⟨lh2, lf2, hfold, ?_, ?_, ?_⟩
        · rcases hmem with ⟨h1, h2⟩ | ⟨tx2, htx2, hfee⟩
          · subst h1; subst h2
            exact Or.inr ⟨kv.2, by simp, rfl⟩
          · exact Or.inr ⟨tx2, List.mem_cons_of_mem kv htx2, hfee⟩
        · exact le_trans hle (le_of_lt hlt)
        · intro kv2 hkv2
          rcases List.mem_cons.mp hkv2 with h | h
          · subst h; exact hle
          · exact hall kv2 h
      · have step : (match ((some lh : Option Bytes), (some lf : Option Int)).2 with
            | none => (some kv.1, some kv.2.gas_fee)
            | some f => if kv.2.gas_fee < f then (some kv.1, some kv.2.gas_fee)
                        else ((some lh : Option Bytes), (some lf : Option Int))) =
            (some lh, some lf) := by simp [hlt]
        rw [step]
        rcases ih lh lf with ⟨lh2, lf2, hfold, hmem, hle, hall⟩
        refine ⟨lh2, lf2, hfold, ?_, hle, ?_⟩
        · rcases hmem with ⟨h1, h2⟩ | ⟨tx2, htx2, hfee⟩
          · exact Or.inl ⟨h1, h2⟩
          · exact Or.inr ⟨tx2, List.mem_cons_of_mem kv htx2, hfee⟩
        · intro kv2 hkv2
          rcases List.mem_cons.mp hkv2 with h | h
          · subst h
            exact le_trans hle (not_lt.mp hlt)
          · exact hall kv2 h

/-- `_find_lowest_fee` on a nonempty pool returns an entry of minimum fee
(the first such entry, by the strict comparison in the scan). -/
theorem find_lowest_fee_spec {l : List (Bytes × Transaction)} (hne : l ≠ []) :
    ∃ lh lf, find_lowest_fee l = (some lh, some lf) ∧
      (∃ tx2, (lh, tx2) ∈ l ∧ tx2.gas_fee = lf) ∧
      (∀ kv ∈ l, lf ≤ kv.2.gas_fee) := by
  cases l with
  | nil => exact absurd rfl hne
  | cons kv rest =>
      unfold find_lowest_fee
      rw [List.foldl_cons]
      have step : (match ((none : Option Bytes), (none : Option Int)).2 with
          | none => (some kv.1, some kv.2.gas_fee)
          | some f => if kv.2.gas_fee < f then (some kv.1, some kv.2.gas_fee)
                      else ((none : Option Bytes), (none : Option Int))) =
          (some kv.1, some kv.2.gas_fee) := by simp
      rw [step]
      rcases flf_aux rest kv.1 kv.2.gas_fee with ⟨lh2, lf2, hfold, hmem, hle, hall⟩
      refine ⟨lh2, lf2, hfold, ?_, ?_⟩
      · rcases hmem with ⟨h1, h2⟩ | ⟨tx2, htx2, hfee⟩
        · subst h1; subst h2
          exact ⟨kv.2, by simp, rfl⟩
        · exact ⟨tx2, List.mem_cons_of_mem kv htx2, hfee⟩
      · intro kv2 hkv2
        rcases List.mem_cons.mp hkv2 with h | h
        · subst h; exact hle
        · exact hall kv2 h

/-! ## C6: mempool admission at capacity -/

/-- C6: for a non-coinbase, format-valid, state-valid transaction whose
content address is neither pending nor confirmed, when the pool already
holds `max_size` (nonempty) entries: the scan finds an entry of minimum
gas fee; if the incoming fee is strictly greater, `add` evicts that entry,
inserts the transaction (net size unchanged) and returns its hash;
otherwise `add` raises "fee too low" and the pool contents are exactly as
before the call. -/
theorem c6_mempool_full_eviction
    (sha : List Nat → List Nat) (dumps : Json → List Nat)
    (ed : List Nat → List Nat → List Nat → Except CryptoError Unit)
    (c : Blockchain) (mp : Mempool) (tx : Transaction)
    (hnc : tx.isCoinbase = false)
    (hfmt : validate_transaction_format dumps ed tx 0 = Except.ok ())
    (hstate : validate_transaction_state tx c.state c.known_posts = Except.ok ())
    (hpend : alookup mp.txs (tx.tx_hash sha dumps) = none)
    (hconf : alookup c.tx_index (tx.tx_hash sha dumps) = none)
    (hfull : mp.txs.length = mp.max_size)
    (hne : mp.txs ≠ []) :
    ∃ lh lf,
      find_lowest_fee mp.txs = (some lh, some lf) ∧
      (∃ tx2, (lh, tx2) ∈ mp.txs ∧ tx2.gas_fee = lf) ∧
      (∀ kv ∈ mp.txs, lf ≤ kv.2.gas_fee) ∧
      (lf < tx.gas_fee →
        (Mempool.add_m sha dumps ed c tx).run mp =
          (Except.ok (tx.tx_hash sha dumps),
           { mp with txs := aset (aerase mp.txs lh) (tx.tx_hash sha dumps) tx }) ∧
        (aset (aerase mp.txs lh) (tx.tx_hash sha dumps) tx).length =
          mp.txs.length) ∧
      (¬lf < tx.gas_fee →
        (Mempool.add_m sha dumps ed c tx).run mp =
          (Except.error "mempool full and fee too low for eviction", mp)) := by
  rcases find_lowest_fee_spec hne with ⟨lh, lf, hfind, ⟨tx2, htx2, hfee⟩, hall⟩
  refine ⟨lh, lf, hfind, ⟨tx2, htx2, hfee⟩, hall, ?_, ?_⟩
  · intro hlt
    constructor
    · show (Mempool.add_m sha dumps ed c tx) mp = _
      simp only [Mempool.add_m, Bind.bind, ExceptT.bind, ExceptT.lift,
        ExceptT.mk, ExceptT.bindCont, StateT.bind, MonadState.get, getThe,
        MonadStateOf.get, StateT.get, liftE, ensure, hnc, Bool.not_false,
        if_true, hpend, hconf, Option.isNone_none, hfmt, hstate, hfull,
        le_refl, if_pos, hfind, hlt, decide_True, MonadState.modifyGet,
        modifyGet, MonadStateOf.modifyGet, StateT.modifyGet, Functor.map,
        StateT.map, pure, StateT.pure, Except.pure, ExceptT.pure, Id.map_eq,
        Id.run, decide_eq_true_eq]
    · have herase := aerase_length (alookup_isSome_of_mem htx2)
      rw [aset_of_none (alookup_aerase_none hpend)]
      simp only [List.length_append, List.length_singleton]
      omega
  · intro hge
    show (Mempool.add_m sha dumps ed c tx) mp = _
    simp only [Mempool.add_m, Bind.bind, ExceptT.bind, ExceptT.lift,
      ExceptT.mk, ExceptT.bindCont, StateT.bind, MonadState.get, getThe,
      MonadStateOf.get, StateT.get, liftE, ensure, hnc, Bool.not_false,
      if_true, hpend, hconf, Option.isNone_none, hfmt, hstate, hfull,
      le_refl, if_pos, hfind, hge, MonadState.modifyGet, modifyGet,
      MonadStateOf.modifyGet, StateT.modifyGet, Functor.map, StateT.map,
      pure, StateT.pure, Except.pure, ExceptT.pure, Id.map_eq, Id.run,
      decide_eq_true_eq, if_neg, if_false]

set_option maxRecDepth 20000 in
/-- C6 witness: a full capacity-1 pool holding a fee-1 transfer, receiving
a valid fee-5 transfer. -/
theorem c6_witness :
    ∃ lh lf,
      find_lowest_fee mpW.txs = (some lh, some lf) ∧
      (∃ tx2, (lh, tx2) ∈ mpW.txs ∧ tx2.gas_fee = lf) ∧
      (∀ kv ∈ mpW.txs, lf ≤ kv.2.gas_fee) ∧
      (lf < txW.gas_fee →
        (Mempool.add_m shaW dumpsW edOkW chainW txW).run mpW =
          (Except.ok (txW.tx_hash shaW dumpsW),
           { mpW with txs := aset (aerase mpW.txs lh) (txW.tx_hash shaW dumpsW) txW }) ∧
        (aset (aerase mpW.txs lh) (txW.tx_hash shaW dumpsW) txW).length =
          mpW.txs.length) ∧
      (¬lf < txW.gas_fee →
        (Mempool.add_m shaW dumpsW edOkW chainW txW).run mpW =
          (Except.error "mempool full and fee too low for eviction", mpW)) :=
  c6_mempool_full_eviction shaW dumpsW edOkW chainW mpW txW (by decide)
    (by rfl) (by rfl) (by decide) (by decide) (by decide) (by decide)

set_option maxRecDepth 40000 in
/-- C1 witness: on the concrete genesis chain, a block whose coinbase pays
9999 is rejected and the chain value is returned unchanged. -/
theorem c1_witness :
    witGenesis = witGenesis ∧ witGenesis.blocks = witGenesis.blocks ∧
      witGenesis.main_chain = witGenesis.main_chain ∧
      witGenesis.state = witGenesis.state ∧
      witGenesis.tx_index = witGenesis.tx_index ∧
      witGenesis.known_posts = witGenesis.known_posts ∧
      witGenesis.post_authors = witGenesis.post_authors :=
  c1_failed_add_block_preserves_chain shaW dumpsW edOkW witBadB1 witGenesis 1
    "coinbase amount mismatch" witGenesis (by rfl)

/-! ## C7 machinery: Merkle level-fold lemmas -/

theorem getD_append_left {l l2 : List Bytes} :
    ∀ {i : Nat}, i < l.length → ∀ d, (l ++ l2).getD i d = l.getD i d := by
  induction l with
  | nil => intro i h; simp at h
  | cons a rest ih =>
      intro i h d
      cases i with
      | zero => rfl
      | succ n =>
          simp only [List.cons_append, List.getD_cons_succ]
          exact ih (by simpa using h) d

theorem padLevel_even (l : List Bytes) : (padLevel l).length % 2 = 0 := by
  unfold padLevel
  split
  · simp only [List.length_append, List.length_singleton]
    omega
  · omega

theorem padLevel_length (l : List Bytes) :
    l.length ≤ (padLevel l).length ∧ (padLevel l).length ≤ l.length + 1 := by
  unfold padLevel
  split <;> simp

theorem padLevel_getD {l : List Bytes} {i : Nat} (h : i < l.length) (d : Bytes) :
    (padLevel l).getD i d = l.getD i d := by
  unfold padLevel
  split
  · exact getD_append_left h d
  · rfl

theorem pairUp_length (sha : List Nat → List Nat) :
    ∀ l : List Bytes, (pairUp sha l).length = l.length / 2
  | [] => by simp [pairUp]
  | [a] => by simp [pairUp]
  | a :: b :: rest => by
      simp only [pairUp, List.length_cons, pairUp_length sha rest]
      omega

theorem pairUp_getD (sha : List Nat → List Nat) :
    ∀ (l : List Bytes) (k : Nat), 2 * k + 1 < l.length →
      (pairUp sha l).getD k [] = sha (l.getD (2 * k) [] ++ l.getD (2 * k + 1) [])
  | [], k, h => by simp at h
  | [a], k, h => by simp at h
  | a :: b :: rest, 0, _ => rfl
  | a :: b :: rest, k + 1, h => by
      have hrec := pairUp_getD sha rest k (by
        simp only [List.length_cons] at h
        omega)
      rw [show 2 * (k + 1) = 2 * k + 1 + 1 from by omega]
      simp only [pairUp, List.getD_cons_succ]
      exact hrec

theorem foldProof_cons_right (sha : List Nat → List Nat) (leaf sib : Bytes)
    (ps : List (Bytes × Bool)) :
    foldProof sha leaf ((sib, false) :: ps) =
      foldProof sha (sha (leaf ++ sib)) ps := rfl

theorem foldProof_cons_left (sha : List Nat → List Nat) (leaf sib : Bytes)
    (ps : List (Bytes × Bool)) :
    foldProof sha leaf ((sib, true) :: ps) =
      foldProof sha (sha (sib ++ leaf)) ps := rfl

theorem merkle_path_correct (sha : List Nat → List Nat) :
    ∀ (fuel : Nat) (l : List Bytes) (idx : Nat), idx < l.length →
      l.length ≤ fuel + 1 →
      foldProof sha (l.getD idx []) (proofLoop sha fuel l idx) =
        rootLoop sha fuel l := by
  intro fuel
  induction fuel with
  | zero =>
      intro l idx h1 h2
      match l, h1, h2 with
      | [a], h1, h2 =>
          have : idx = 0 := by simpa using h1
          subst this
          rfl
  | succ fuel ih =>
      intro l idx h1 h2
      by_cases hle : l.length ≤ 1
      · match l, h1, hle with
        | [a], h1, hle =>
            have : idx = 0 := by simpa using h1
            subst this
            rfl
      · have hn : 2 ≤ l.length := by omega
        have hlv1 := (padLevel_length l).1
        have hlv2 := (padLevel_length l).2
        have hev := padLevel_even l
        simp only [proofLoop, rootLoop, if_neg hle]
        by_cases hpar : idx % 2 = 0
        · rw [if_pos hpar, foldProof_cons_right]
          have hidx1 : idx + 1 < (padLevel l).length := by omega
          have hcomb : sha (l.getD idx [] ++ (padLevel l).getD (idx + 1) []) =
              (pairUp sha (padLevel l)).getD (idx / 2) [] := by
            rw [pairUp_getD sha (padLevel l) (idx / 2) (by omega)]
            rw [show 2 * (idx / 2) = idx from by omega]
            rw [padLevel_getD h1]
          rw [hcomb]
          exact ih (pairUp sha (padLevel l)) (idx / 2)
            (by rw [pairUp_length]; omega)
            (by rw [pairUp_length]; omega)
        · rw [if_neg hpar, foldProof_cons_left]
          have hcomb : sha ((padLevel l).getD (idx - 1) [] ++ l.getD idx []) =
              (pairUp sha (padLevel l)).getD (idx / 2) [] := by
            rw [pairUp_getD sha (padLevel l) (idx / 2) (by omega)]
            rw [show 2 * (idx / 2) = idx - 1 from by omega]
            rw [show idx - 1 + 1 = idx from by omega]
            rw [padLevel_getD h1]
          rw [hcomb]
          exact ih (pairUp sha (padLevel l)) (idx / 2)
            (by rw [pairUp_length]; omega)
            (by rw [pairUp_length]; omega)


theorem foldProof_injective (sha : List Nat → List Nat)
    (hinj : ∀ a b : List Nat, sha a = sha b → a = b) :
    ∀ (p : List (Bytes × Bool)) (x y : Bytes),
      foldProof sha x p = foldProof sha y p → x = y
  | [], x, y, h => h
  | (sib, bside) :: ps, x, y, h => by
      cases bside with
      | false =>
          rw [foldProof_cons_right, foldProof_cons_right] at h
          have h2 := foldProof_injective sha hinj ps _ _ h
          exact List.append_cancel_right (hinj _ _ h2)
      | true =>
          rw [foldProof_cons_left, foldProof_cons_left] at h
          have h2 := foldProof_injective sha hinj ps _ _ h
          exact List.append_cancel_left (hinj _ _ h2)

/-- C7: for every nonempty list of leaf hashes and every index within it,
`merkle_proof` yields a proof which `verify_merkle_proof` accepts against
`merkle_root(leaves)`; replacing the leaf with a different hash (given that
the hash function is collision-free, the claim's exception) or the root
with a different hash makes verification return false. -/
theorem c7_merkle_roundtrip (sha : List Nat → List Nat)
    (hinj : ∀ a b : List Nat, sha a = sha b → a = b)
    (leaves : List Bytes) (idx : Nat) (h : idx < leaves.length) :
    ∃ p, merkle_proof sha leaves idx = some p ∧
      verify_merkle_proof sha (leaves.getD idx []) p
        (merkle_root sha leaves) = true ∧
      (∀ leaf2, leaf2 ≠ leaves.getD idx [] →
        verify_merkle_proof sha leaf2 p (merkle_root sha leaves) = false) ∧
      (∀ root2, root2 ≠ merkle_root sha leaves →
        verify_merkle_proof sha (leaves.getD idx []) p root2 = false) := by
  have hne : ¬leaves.isEmpty := by
    cases leaves with
    | nil => simp at h
    | cons a rest => simp
  have hguard : ¬(leaves.isEmpty ∨ leaves.length ≤ idx) := by
    push_neg
    exact ⟨by simpa using hne, by omega⟩
  have hroot : merkle_root sha leaves = rootLoop sha leaves.length leaves := by
    unfold merkle_root
    rw [if_neg (by simpa using hne)]
  have hcorrect := merkle_path_correct sha leaves.length leaves idx h (by omega)
  refine ⟨proofLoop sha leaves.length leaves idx, ?_, ?_, ?_, ?_⟩
  · unfold merkle_proof
    rw [if_neg hguard]
  · unfold verify_merkle_proof
    rw [hroot]
    simp only [decide_eq_true_eq]
    exact hcorrect
  · intro leaf2 hne2
    unfold verify_merkle_proof
    rw [hroot]
    simp only [decide_eq_false_iff_not]
    intro heq
    exact hne2 (foldProof_injective sha hinj _ _ _ (heq.trans hcorrect.symm))
  · intro root2 hne2
    unfold verify_merkle_proof
    simp only [decide_eq_false_iff_not]
    rw [hcorrect]
    rw [hroot] at hne2
    exact fun heq => hne2 heq.symm

/-- C7 witness: the three-leaf tree at index 1, with the injective hash
stand-in. -/
theorem c7_witness :
    ∃ p, merkle_proof shaInjW [[1], [2], [3]] 1 = some p ∧
      verify_merkle_proof shaInjW (([[1], [2], [3]] : List Bytes).getD 1 []) p
        (merkle_root shaInjW [[1], [2], [3]]) = true ∧
      (∀ leaf2, leaf2 ≠ ([[1], [2], [3]] : List Bytes).getD 1 [] →
        verify_merkle_proof shaInjW leaf2 p
          (merkle_root shaInjW [[1], [2], [3]]) = false) ∧
      (∀ root2, root2 ≠ merkle_root shaInjW [[1], [2], [3]] →
        verify_merkle_proof shaInjW (([[1], [2], [3]] : List Bytes).getD 1 [])
          p root2 = false) :=
  c7_merkle_roundtrip shaInjW shaInjW_inj [[1], [2], [3]] 1 (by decide)



theorem alookup_aset_self {V : Type} (l : List (Bytes × V)) (k : Bytes) (v : V) :
    alookup (aset l k v) k = some v := by
  induction l with
  | nil => simp [aset, alookup]
  | cons kv rest ih =>
      cases kv with
      | mk a b =>
        by_cases hk : a = k
        · simp [aset, alookup, hk]
        · simp [aset, alookup, hk, ih]

theorem alookup_aset_ne {V : Type} {l : List (Bytes × V)} {k k2 : Bytes}
    {v : V} (h : k ≠ k2) : alookup (aset l k2 v) k = alookup l k := by
  induction l with
  | nil => simp [aset, alookup, Ne.symm h]
  | cons kv rest ih =>
      cases kv with
      | mk a b =>
        by_cases hk : a = k2
        · subst hk
          simp only [aset, if_pos rfl, alookup, if_neg (Ne.symm h)]
        · simp only [aset, if_neg hk, alookup]
          by_cases hak : a = k
          · simp [hak]
          · simp [hak, ih]

theorem alookup_append_single {V : Type} (l : List (Bytes × V)) (k2 k : Bytes)
    (v2 : V) :
    alookup (l ++ [(k2, v2)]) k =
      (match alookup l k with
       | some v => some v
       | none => if k2 = k then some v2 else none) := by
  induction l with
  | nil => simp [alookup]
  | cons kv rest ih =>
      cases kv with
      | mk a b =>
        by_cases hk : a = k
        · simp [alookup, hk]
        · simp only [List.cons_append, alookup, if_neg hk]
          exact ih

theorem alookup_mem {V : Type} {l : List (Bytes × V)} {k : Bytes} {v : V}
    (h : alookup l k = some v) : (k, v) ∈ l := by
  induction l with
  | nil => simp [alookup] at h
  | cons kv rest ih =>
      cases kv with
      | mk a b =>
        by_cases hk : a = k
        · subst hk
          rw [show alookup ((a, b) :: rest) a = some b from by
            simp [alookup]] at h
          injection h with h2
          subst h2
          exact List.mem_cons_self _ _
        · simp only [alookup, if_neg hk] at h
          exact List.mem_cons_of_mem _ (ih h)

theorem aset_mem {V : Type} {l : List (Bytes × V)} {k : Bytes} {v : V} :
    ∀ kv ∈ aset l k v, kv ∈ l ∨ kv.2 = v := by
  induction l with
  | nil =>
      intro kv hkv
      simp only [aset] at hkv
      rcases List.mem_singleton.mp hkv with h
      exact Or.inr (by rw [h])
  | cons kv0 rest ih =>
      intro kv hkv
      cases kv0 with
      | mk a b =>
        by_cases hk : a = k
        · simp only [aset, if_pos hk] at hkv
          rcases List.mem_cons.mp hkv with h | h
          · exact Or.inr (by rw [h])
          · exact Or.inl (List.mem_cons_of_mem _ h)
        · simp only [aset, if_neg hk] at hkv
          rcases List.mem_cons.mp hkv with h | h
          · exact Or.inl (by rw [h]; exact List.mem_cons_self _ _)
          · rcases ih kv h with h2 | h2
            · exact Or.inl (List.mem_cons_of_mem _ h2)
            · exact Or.inr h2

theorem sumBal_aset {s : WorldState} {k : Bytes} {a : Account} (v : Account)
    (h : alookup s k = some a) :
    sumBal (aset s k v) = sumBal s - a.balance + v.balance := by
  induction s with
  | nil => simp [alookup] at h
  | cons kv rest ih =>
      cases kv with
      | mk x acc =>
        by_cases hk : x = k
        · simp only [alookup, if_pos hk, Option.some.injEq] at h
          subst h
          simp only [aset, if_pos hk, sumBal, List.map_cons, List.sum_cons]
          omega
        · simp only [alookup, if_neg hk] at h
          simp only [aset, if_neg hk, sumBal, List.map_cons, List.sum_cons]
          have h2 := ih h
          simp only [sumBal] at h2
          omega

theorem sumBal_append (s : WorldState) (k : Bytes) (v : Account) :
    sumBal (s ++ [(k, v)]) = sumBal s + v.balance := by
  simp [sumBal]

theorem sumBal_touch (s : WorldState) (k : Bytes) (f : Account → Account)
    (d : Int) (hf : ∀ a, (f a).balance = a.balance + d) :
    sumBal (touchAccount s k f) = sumBal s + d := by
  unfold touchAccount
  cases h : alookup s k with
  | some a =>
      rw [sumBal_aset (f a) h, hf a]
      omega
  | none =>
      rw [sumBal_append, hf Account.new]
      simp [Account.new]

theorem sumBal_touch_credit (s : WorldState) (k : Bytes) (d : Int) :
    sumBal (touchAccount s k (credit d)) = sumBal s + d :=
  sumBal_touch s k (credit d) d (fun _ => rfl)

theorem sumBal_touch_debitBump (s : WorldState) (k : Bytes) (d : Int) :
    sumBal (touchAccount s k (debitBump d)) = sumBal s - d := by
  have h := sumBal_touch s k (debitBump d) (-d)
    (fun a => by dsimp only [debitBump]; omega)
  omega

theorem nonceOf_touch_le (s : WorldState) (k2 : Bytes) (f : Account → Account)
    (hf : ∀ a, a.nonce ≤ (f a).nonce) (k : Bytes) :
    nonceOf s k ≤ nonceOf (touchAccount s k2 f) k := by
  unfold touchAccount
  cases h : alookup s k2 with
  | some a =>
      by_cases hk : k = k2
      · subst hk
        unfold nonceOf
        rw [h, alookup_aset_self]
        exact hf a
      · unfold nonceOf
        rw [alookup_aset_ne hk]
  | none =>
      unfold nonceOf
      rw [alookup_append_single]
      cases h2 : alookup s k with
      | some a => simp
      | none =>
          by_cases hk : k2 = k
          · subst hk
            simp only [if_pos rfl]
            have h3 := hf Account.new
            simp only [Account.new] at h3
            simpa using h3
          · simp [hk]

theorem nonnegB_touch (s : WorldState) (k : Bytes) (f : Account → Account)
    (hs : NonnegB s)
    (hnew : alookup s k = none → 0 ≤ (f Account.new).balance)
    (hsome : ∀ a, alookup s k = some a → 0 ≤ (f a).balance) :
    NonnegB (touchAccount s k f) := by
  unfold touchAccount
  cases h : alookup s k with
  | some a =>
      intro kv hkv
      rcases aset_mem kv hkv with h2 | h2
      · exact hs kv h2
      · rw [h2]
        exact hsome a h
  | none =>
      intro kv hkv
      rcases List.mem_append.mp hkv with h2 | h2
      · exact hs kv h2
      · rcases List.mem_singleton.mp h2 with h3
        rw [h3]
        exact hnew h

theorem nonnegB_touch_credit (s : WorldState) (k : Bytes) (d : Int)
    (hd : 0 ≤ d) (hs : NonnegB s) :
    NonnegB (touchAccount s k (credit d)) := by
  refine nonnegB_touch s k (credit d) hs ?_ ?_
  · intro _
    dsimp only [credit, Account.new]
    omega
  · intro a ha
    have h2 := hs (k, a) (alookup_mem ha)
    dsimp only [credit]
    dsimp only at h2
    omega


theorem sumBal_apply_coinbase (s : WorldState) (cb : Coinbase) :
    sumBal (applyCoinbase s cb) = sumBal s + cb.amount :=
  sumBal_touch_credit s cb.recipient cb.amount

theorem sumBal_apply_post (s : WorldState) (p : Post) (miner : Bytes) :
    sumBal (applyPost s p miner) = sumBal s := by
  unfold applyPost
  rw [sumBal_touch_credit, sumBal_touch_debitBump]
  omega

theorem sumBal_apply_transfer (s : WorldState) (t : Transfer) (miner : Bytes) :
    sumBal (applyTransfer s t miner) = sumBal s := by
  unfold applyTransfer
  rw [sumBal_touch_credit, sumBal_touch_credit, sumBal_touch_debitBump]
  omega

theorem sumBal_apply_endorse (s : WorldState) (e : Endorse) (miner : Bytes)
    (ta : Option Bytes) (h0 : 0 ≤ e.amount)
    (hta : 0 < e.amount → ta.isSome = true) :
    sumBal (applyEndorse s e miner ta) = sumBal s := by
  unfold applyEndorse
  cases ta with
  | some a =>
      dsimp only
      by_cases hpos : 0 < e.amount
      · rw [if_pos hpos, sumBal_touch_credit, sumBal_touch_credit,
          sumBal_touch_debitBump]
        omega
      · have hz : e.amount = 0 := by omega
        rw [if_neg hpos, sumBal_touch_credit, sumBal_touch_debitBump]
        omega
  | none =>
      dsimp only
      by_cases hpos : 0 < e.amount
      · exact absurd (hta hpos) (by simp)
      · have hz : e.amount = 0 := by omega
        rw [sumBal_touch_credit, sumBal_touch_debitBump]
        omega

theorem nonceOf_apply_le (s : WorldState) (tx : Transaction) (miner : Bytes)
    (ta : Option Bytes) (k : Bytes) :
    nonceOf s k ≤ nonceOf (apply_transaction s tx miner ta) k := by
  have hcred : ∀ d (a : Account), a.nonce ≤ (credit d a).nonce :=
    fun d a => le_refl _
  have hdeb : ∀ d (a : Account), a.nonce ≤ (debitBump d a).nonce := by
    intro d a
    dsimp only [debitBump]
    omega
  cases tx with
  | coinbase cb =>
      exact nonceOf_touch_le s cb.recipient (credit cb.amount)
        (hcred cb.amount) k
  | post p =>
      show nonceOf s k ≤ nonceOf (applyPost s p miner) k
      unfold applyPost
      exact le_trans
        (nonceOf_touch_le s p.author (debitBump p.gas_fee) (hdeb _) k)
        (nonceOf_touch_le _ miner (credit p.gas_fee) (hcred _) k)
  | transfer t =>
      show nonceOf s k ≤ nonceOf (applyTransfer s t miner) k
      unfold applyTransfer
      refine le_trans
        (nonceOf_touch_le s t.sender (debitBump (t.amount + t.gas_fee)) (hdeb _) k) ?_
      refine le_trans
        (nonceOf_touch_le _ t.recipient (credit t.amount) (hcred _) k) ?_
      exact nonceOf_touch_le _ miner (credit t.gas_fee) (hcred _) k
  | endorse e =>
      show nonceOf s k ≤ nonceOf (applyEndorse s e miner ta) k
      unfold applyEndorse
      dsimp only
      refine le_trans (le_trans
        (nonceOf_touch_le s e.author (debitBump (e.gas_fee + e.amount)) (hdeb _) k)
        (nonceOf_touch_le _ miner (credit e.gas_fee) (hcred _) k)) ?_
      cases ta with
      | some ta2 =>
          dsimp only
          by_cases hpos : 0 < e.amount
          · rw [if_pos hpos]
            exact nonceOf_touch_le _ ta2 (credit e.amount) (hcred _) k
          · rw [if_neg hpos]
      | none => exact le_refl _

theorem nonnegB_apply_coinbase (s : WorldState) (cb : Coinbase)
    (h0 : 0 ≤ cb.amount) (hs : NonnegB s) :
    NonnegB (applyCoinbase s cb) :=
  nonnegB_touch_credit s cb.recipient cb.amount h0 hs

theorem nonnegB_touch_debit (s : WorldState) (k : Bytes) (d : Int)
    (acc : Account) (hacc : alookup s k = some acc) (hbal : d ≤ acc.balance)
    (hs : NonnegB s) :
    NonnegB (touchAccount s k (debitBump d)) := by
  refine nonnegB_touch s k (debitBump d) hs ?_ ?_
  · intro hnone
    rw [hnone] at hacc
    exact absurd hacc (by simp)
  · intro a ha
    rw [ha] at hacc
    injection hacc with h2
    subst h2
    dsimp only [debitBump]
    omega

theorem nonnegB_apply_post (s : WorldState) (p : Post) (miner : Bytes)
    (acc : Account) (hacc : alookup s p.author = some acc)
    (hbal : p.gas_fee ≤ acc.balance) (hfee : 0 ≤ p.gas_fee)
    (hs : NonnegB s) : NonnegB (applyPost s p miner) := by
  unfold applyPost
  exact nonnegB_touch_credit _ miner p.gas_fee hfee
    (nonnegB_touch_debit s p.author p.gas_fee acc hacc hbal hs)

theorem nonnegB_apply_transfer (s : WorldState) (t : Transfer) (miner : Bytes)
    (acc : Account) (hacc : alookup s t.sender = some acc)
    (hbal : t.amount + t.gas_fee ≤ acc.balance) (hfee : 0 ≤ t.gas_fee)
    (hamt : 0 ≤ t.amount) (hs : NonnegB s) :
    NonnegB (applyTransfer s t miner) := by
  unfold applyTransfer
  exact nonnegB_touch_credit _ miner t.gas_fee hfee
    (nonnegB_touch_credit _ t.recipient t.amount hamt
      (nonnegB_touch_debit s t.sender (t.amount + t.gas_fee) acc hacc hbal hs))

theorem nonnegB_apply_endorse (s : WorldState) (e : Endorse) (miner : Bytes)
    (ta : Option Bytes) (acc : Account) (hacc : alookup s e.author = some acc)
    (hbal : e.gas_fee + e.amount ≤ acc.balance) (hfee : 0 ≤ e.gas_fee)
    (hamt : 0 ≤ e.amount) (hs : NonnegB s) :
    NonnegB (applyEndorse s e miner ta) := by
  unfold applyEndorse
  have hbase : NonnegB (touchAccount
      (touchAccount s e.author (debitBump (e.gas_fee + e.amount))) miner
      (credit e.gas_fee)) :=
    nonnegB_touch_credit _ miner e.gas_fee hfee
      (nonnegB_touch_debit s e.author (e.gas_fee + e.amount) acc hacc hbal hs)
  cases ta with
  | some ta2 =>
      dsimp only
      by_cases hpos : 0 < e.amount
      · rw [if_pos hpos]
        exact nonnegB_touch_credit _ ta2 e.amount hamt hbase
      · rw [if_neg hpos]
        exact hbase
  | none => exact hbase


theorem validate_post_format_facts
    {dumps : Json → List Nat}
    {ed : List Nat → List Nat → List Nat → Except CryptoError Unit}
    {p : Post} {u : Unit} (h : validate_post_format dumps ed p = Except.ok u) :
    MINIMUM_GAS_FEE ≤ p.gas_fee := by
  unfold validate_post_format at h
  rcases bind_ok h with ⟨_, h1, h⟩
  rcases bind_ok h with ⟨_, h2, h⟩
  rcases bind_ok h with ⟨_, h3, h⟩
  rcases bind_ok h with ⟨_, h4, h⟩
  rcases bind_ok h with ⟨_, h5, h⟩
  exact of_decide_eq_true (ensure_ok h5)

theorem validate_endorse_format_facts
    {dumps : Json → List Nat}
    {ed : List Nat → List Nat → List Nat → Except CryptoError Unit}
    {e : Endorse} {u : Unit}
    (h : validate_endorse_format dumps ed e = Except.ok u) :
    0 ≤ e.amount ∧ MINIMUM_GAS_FEE ≤ e.gas_fee := by
  unfold validate_endorse_format at h
  rcases bind_ok h with ⟨_, h1, h⟩
  rcases bind_ok h with ⟨_, h2, h⟩
  rcases bind_ok h with ⟨_, h3, h⟩
  rcases bind_ok h with ⟨_, h4, h⟩
  rcases bind_ok h with ⟨_, h5, h⟩
  rcases bind_ok h with ⟨_, h6, h⟩
  exact ⟨of_decide_eq_true (ensure_ok h4), of_decide_eq_true (ensure_ok h6)⟩

theorem validate_transfer_format_facts
    {dumps : Json → List Nat}
    {ed : List Nat → List Nat → List Nat → Except CryptoError Unit}
    {t : Transfer} {u : Unit}
    (h : validate_transfer_format dumps ed t = Except.ok u) :
    0 < t.amount ∧ MINIMUM_GAS_FEE ≤ t.gas_fee := by
  unfold validate_transfer_format at h
  rcases bind_ok h with ⟨_, h1, h⟩
  rcases bind_ok h with ⟨_, h2, h⟩
  rcases bind_ok h with ⟨_, h3, h⟩
  rcases bind_ok h with ⟨_, h4, h⟩
  rcases bind_ok h with ⟨_, h5, h⟩
  rcases bind_ok h with ⟨_, h6, h⟩
  exact ⟨of_decide_eq_true (ensure_ok h4), of_decide_eq_true (ensure_ok h6)⟩

theorem validate_post_state_facts {p : Post} {s : WorldState}
    {posts : List Bytes} {u : Unit}
    (h : validate_post_state p s posts = Except.ok u) :
    ∃ acc, alookup s p.author = some acc ∧ p.nonce = acc.nonce ∧
      p.gas_fee ≤ acc.balance := by
  unfold validate_post_state at h
  cases hacc : alookup s p.author with
  | none => rw [hacc] at h; exact absurd h (by simp)
  | some acc =>
      rw [hacc] at h
      rcases bind_ok h with ⟨_, h1, h⟩
      rcases bind_ok h with ⟨_, h2, h⟩
      exact ⟨acc, rfl, of_decide_eq_true (ensure_ok h1),
        of_decide_eq_true (ensure_ok h2)⟩

theorem validate_endorse_state_facts {e : Endorse} {s : WorldState}
    {posts : List Bytes} {u : Unit}
    (h : validate_endorse_state e s posts = Except.ok u) :
    ∃ acc, alookup s e.author = some acc ∧ e.nonce = acc.nonce ∧
      e.gas_fee + e.amount ≤ acc.balance ∧ e.target ∈ posts := by
  unfold validate_endorse_state at h
  cases hacc : alookup s e.author with
  | none => rw [hacc] at h; exact absurd h (by simp)
  | some acc =>
      rw [hacc] at h
      rcases bind_ok h with ⟨_, h1, h⟩
      rcases bind_ok h with ⟨_, h2, h3⟩
      exact ⟨acc, rfl, of_decide_eq_true (ensure_ok h1),
        of_decide_eq_true (ensure_ok h2), of_decide_eq_true (ensure_ok h3)⟩

theorem validate_transfer_state_facts {t : Transfer} {s : WorldState} {u : Unit}
    (h : validate_transfer_state t s = Except.ok u) :
    ∃ acc, alookup s t.sender = some acc ∧ t.nonce = acc.nonce ∧
      t.amount + t.gas_fee ≤ acc.balance := by
  unfold validate_transfer_state at h
  cases hacc : alookup s t.sender with
  | none => rw [hacc] at h; exact absurd h (by simp)
  | some acc =>
      rw [hacc] at h
      rcases bind_ok h with ⟨_, h1, h2⟩
      exact ⟨acc, rfl, of_decide_eq_true (ensure_ok h1),
        of_decide_eq_true (ensure_ok h2)⟩

theorem validateTxsLoop_cons
    {sha : List Nat → List Nat} {dumps : Json → List Nat}
    {ed : List Nat → List Nat → List Nat → Except CryptoError Unit}
    {miner : Bytes} {height : Int} {txIndex : List (Bytes × Bytes)}
    {tx : Transaction} {txs : List Transaction} {st stF : TxLoopState}
    (h : validateTxsLoop sha dumps ed miner height txIndex (tx :: txs) st =
      Except.ok stF) :
    (∃ u, validate_transaction_format dumps ed tx height = Except.ok u) ∧
    (tx.isCoinbase = false →
      ∃ u, validate_transaction_state tx st.working_state st.working_posts =
        Except.ok u) ∧
    validateTxsLoop sha dumps ed miner height txIndex txs
      (loopStep sha dumps miner tx st) = Except.ok stF := by
  unfold validateTxsLoop at h
  rcases bind_ok h with ⟨_, h1, h⟩
  rcases bind_ok h with ⟨u2, h2, h⟩
  rcases bind_ok h with ⟨u3, h3, h⟩
  refine ⟨⟨u2, h2⟩, ?_, ?_⟩
  · intro hnc
    rw [hnc] at h3
    simp only [Bool.false_eq_true, if_false] at h3
    exact ⟨u3, h3⟩
  · unfold loopStep
    cases tx with
    | post p => exact h
    | endorse e => exact h
    | transfer t => exact h
    | coinbase cb => exact h


theorem block_reward_nonneg (h : Int) : 0 ≤ block_reward h := by
  unfold block_reward
  dsimp only
  split
  · exact le_refl 0
  · exact Int.ediv_nonneg (by norm_num [INITIAL_BLOCK_REWARD]) (by positivity)

theorem covered_sadd_aset {posts : List Bytes} {authors : List (Bytes × Bytes)}
    (h : Covered posts authors) (k a : Bytes) :
    Covered (sadd posts k) (aset authors k a) := by
  intro h2 hmem
  unfold sadd at hmem
  by_cases hk : h2 = k
  · subst hk
    rw [alookup_aset_self]
    rfl
  · have hmem2 : h2 ∈ posts := by
      by_cases hin : k ∈ posts
      · rw [if_pos hin] at hmem
        exact hmem
      · rw [if_neg hin] at hmem
        rcases List.mem_append.mp hmem with hm | hm
        · exact hm
        · exact absurd (List.mem_singleton.mp hm) hk
    rw [alookup_aset_ne hk]
    exact h h2 hmem2

theorem validate_coinbase_facts_of_format
    {dumps : Json → List Nat}
    {ed : List Nat → List Nat → List Nat → Except CryptoError Unit}
    {cb : Coinbase} {height : Int} {u : Unit}
    (h : validate_transaction_format dumps ed (Transaction.coinbase cb) height =
      Except.ok u) : cb.amount = block_reward height := by
  have h2 : validate_coinbase_format cb height = Except.ok u := h
  exact (validate_coinbase_format_ok h2).2.2

theorem validateTxsLoop_sum
    {sha : List Nat → List Nat} {dumps : Json → List Nat}
    {ed : List Nat → List Nat → List Nat → Except CryptoError Unit}
    {miner : Bytes} {height : Int} {txIndex : List (Bytes × Bytes)} :
    ∀ (txs : List Transaction) (st stF : TxLoopState),
      validateTxsLoop sha dumps ed miner height txIndex txs st = Except.ok stF →
      Covered st.working_posts st.working_authors →
      sumBal stF.working_state =
        sumBal st.working_state + (txs.map cbAmount).sum ∧
      Covered stF.working_posts stF.working_authors := by
  intro txs
  induction txs with
  | nil =>
      intro st stF h hcov
      unfold validateTxsLoop at h
      injection h with h2
      subst h2
      simp [hcov]
  | cons tx rest ih =>
      intro st stF h hcov
      rcases validateTxsLoop_cons h with ⟨⟨u1, hfmt⟩, hst, hrest⟩
      have hcov2 : Covered (loopStep sha dumps miner tx st).working_posts
          (loopStep sha dumps miner tx st).working_authors := by
        cases tx with
        | post p => exact covered_sadd_aset hcov _ _
        | endorse e => exact hcov
        | transfer t => exact hcov
        | coinbase cb => exact hcov
      rcases ih (loopStep sha dumps miner tx st) stF hrest hcov2 with ⟨hsum, hcovF⟩
      refine ⟨?_, hcovF⟩
      rw [hsum]
      have hstep : sumBal (loopStep sha dumps miner tx st).working_state =
          sumBal st.working_state + cbAmount tx := by
        cases tx with
        | coinbase cb =>
            show sumBal (applyCoinbase st.working_state cb) = _
            rw [sumBal_apply_coinbase]
            rfl
        | post p =>
            show sumBal (applyPost st.working_state p miner) = _
            rw [sumBal_apply_post]
            simp [cbAmount]
        | transfer t =>
            show sumBal (applyTransfer st.working_state t miner) = _
            rw [sumBal_apply_transfer]
            simp [cbAmount]
        | endorse e =>
            rcases hst (by rfl) with ⟨u2, hstate⟩
            rcases validate_endorse_state_facts hstate with
              ⟨acc, hacc, hn, hb, htgt⟩
            rcases validate_endorse_format_facts hfmt with ⟨hamt, hfee⟩
            show sumBal (applyEndorse st.working_state e miner
              (resolveTarget (Transaction.endorse e) st.working_authors)) = _
            rw [sumBal_apply_endorse _ _ _ _ hamt]
            · simp [cbAmount]
            · intro hpos
              show (if 0 < e.amount then alookup st.working_authors e.target
                else none).isSome = true
              rw [if_pos hpos]
              exact hcov e.target htgt
      rw [hstep]
      simp [cbAmount]
      omega

theorem validateTxsLoop_nonneg
    {sha : List Nat → List Nat} {dumps : Json → List Nat}
    {ed : List Nat → List Nat → List Nat → Except CryptoError Unit}
    {miner : Bytes} {height : Int} {txIndex : List (Bytes × Bytes)} :
    ∀ (txs : List Transaction) (st stF : TxLoopState),
      validateTxsLoop sha dumps ed miner height txIndex txs st = Except.ok stF →
      NonnegB st.working_state → NonnegB stF.working_state := by
  intro txs
  induction txs with
  | nil =>
      intro st stF h hnn
      unfold validateTxsLoop at h
      injection h with h2
      subst h2
      exact hnn
  | cons tx rest ih =>
      intro st stF h hnn
      rcases validateTxsLoop_cons h with ⟨⟨u1, hfmt⟩, hst, hrest⟩
      refine ih (loopStep sha dumps miner tx st) stF hrest ?_
      have hone : (1 : Int) = MINIMUM_GAS_FEE := rfl
      cases tx with
      | coinbase cb =>
          show NonnegB (applyCoinbase st.working_state cb)
          have hamt := validate_coinbase_facts_of_format hfmt
          exact nonnegB_apply_coinbase _ cb
            (hamt ▸ block_reward_nonneg height) hnn
      | post p =>
          rcases hst (by rfl) with ⟨u2, hstate⟩
          rcases validate_post_state_facts hstate with ⟨acc, hacc, hn, hb⟩
          have hfee := validate_post_format_facts hfmt
          show NonnegB (applyPost st.working_state p miner)
          exact nonnegB_apply_post _ p miner acc hacc hb (by omega) hnn
      | transfer t =>
          rcases hst (by rfl) with ⟨u2, hstate⟩
          rcases validate_transfer_state_facts hstate with ⟨acc, hacc, hn, hb⟩
          rcases validate_transfer_format_facts hfmt with ⟨hamt, hfee⟩
          show NonnegB (applyTransfer st.working_state t miner)
          exact nonnegB_apply_transfer _ t miner acc hacc hb (by omega)
            (by omega) hnn
      | endorse e =>
          rcases hst (by rfl) with ⟨u2, hstate⟩
          rcases validate_endorse_state_facts hstate with ⟨acc, hacc, hn, hb, htgt⟩
          rcases validate_endorse_format_facts hfmt with ⟨hamt, hfee⟩
          show NonnegB (applyEndorse st.working_state e miner
            (resolveTarget (Transaction.endorse e) st.working_authors))
          exact nonnegB_apply_endorse _ e miner _ acc hacc hb (by omega) hamt hnn

theorem validateTxsLoop_nonce
    {sha : List Nat → List Nat} {dumps : Json → List Nat}
    {ed : List Nat → List Nat → List Nat → Except CryptoError Unit}
    {miner : Bytes} {height : Int} {txIndex : List (Bytes × Bytes)} :
    ∀ (txs : List Transaction) (st stF : TxLoopState),
      validateTxsLoop sha dumps ed miner height txIndex txs st = Except.ok stF →
      ∀ k, nonceOf st.working_state k ≤ nonceOf stF.working_state k := by
  intro txs
  induction txs with
  | nil =>
      intro st stF h k
      unfold validateTxsLoop at h
      injection h with h2
      subst h2
      exact le_refl _
  | cons tx rest ih =>
      intro st stF h k
      rcases validateTxsLoop_cons h with ⟨_, _, hrest⟩
      refine le_trans ?_ (ih (loopStep sha dumps miner tx st) stF hrest k)
      exact nonceOf_apply_le st.working_state tx miner
        (resolveTarget tx st.working_authors) k


theorem applyBlockTxs_frame (sha : List Nat → List Nat)
    (dumps : Json → List Nat) (miner bh : Bytes) :
    ∀ (txs : List Transaction) (c : Blockchain),
      (applyBlockTxs sha dumps miner bh txs c).blocks = c.blocks ∧
      (applyBlockTxs sha dumps miner bh txs c).main_chain = c.main_chain := by
  intro txs
  induction txs with
  | nil => intro c; exact ⟨rfl, rfl⟩
  | cons tx rest ih =>
      intro c
      unfold applyBlockTxs
      dsimp only
      cases tx with
      | post p => exact ih _
      | endorse e => exact ih _
      | transfer t => exact ih _
      | coinbase cb => exact ih _

theorem applyBlockTxs_align
    {sha : List Nat → List Nat} {dumps : Json → List Nat}
    {ed : List Nat → List Nat → List Nat → Except CryptoError Unit}
    {miner : Bytes} {height : Int} {txIndex : List (Bytes × Bytes)} :
    ∀ (bh : Bytes) (txs : List Transaction) (st stF : TxLoopState)
      (c : Blockchain),
      validateTxsLoop sha dumps ed miner height txIndex txs st = Except.ok stF →
      c.state = st.working_state → c.known_posts = st.working_posts →
      c.post_authors = st.working_authors →
      (applyBlockTxs sha dumps miner bh txs c).state = stF.working_state ∧
      (applyBlockTxs sha dumps miner bh txs c).known_posts =
        stF.working_posts ∧
      (applyBlockTxs sha dumps miner bh txs c).post_authors =
        stF.working_authors := by
  intro bh txs
  induction txs with
  | nil =>
      intro st stF c h h1 h2 h3
      unfold validateTxsLoop at h
      injection h with h4
      subst h4
      exact ⟨h1, h2, h3⟩
  | cons tx rest ih =>
      intro st stF c h h1 h2 h3
      rcases validateTxsLoop_cons h with ⟨_, _, hrest⟩
      unfold applyBlockTxs
      dsimp only
      cases tx with
      | post p =>
          refine ih (loopStep sha dumps miner (Transaction.post p) st) stF
            _ hrest ?_ ?_ ?_
          · show apply_transaction c.state (Transaction.post p) miner none =
              apply_transaction st.working_state (Transaction.post p) miner
                (resolveTarget (Transaction.post p) st.working_authors)
            rw [h1]
            rfl
          · show sadd c.known_posts _ = sadd st.working_posts _
            rw [h2]
          · show aset c.post_authors _ _ = aset st.working_authors _ _
            rw [h3]
      | endorse e =>
          refine ih (loopStep sha dumps miner (Transaction.endorse e) st)
            stF _ hrest ?_ ?_ ?_
          · show apply_transaction c.state (Transaction.endorse e) miner
                (resolveTarget (Transaction.endorse e) c.post_authors) =
              apply_transaction st.working_state (Transaction.endorse e) miner
                (resolveTarget (Transaction.endorse e) st.working_authors)
            rw [h1, h3]
          · exact h2
          · exact h3
      | transfer t =>
          refine ih (loopStep sha dumps miner (Transaction.transfer t) st)
            stF _ hrest ?_ ?_ ?_
          · show apply_transaction c.state (Transaction.transfer t) miner none =
              apply_transaction st.working_state (Transaction.transfer t) miner
                (resolveTarget (Transaction.transfer t) st.working_authors)
            rw [h1]
            rfl
          · exact h2
          · exact h3
      | coinbase cb =>
          refine ih (loopStep sha dumps miner (Transaction.coinbase cb) st)
            stF _ hrest ?_ ?_ ?_
          · show apply_transaction c.state (Transaction.coinbase cb) miner none =
              apply_transaction st.working_state (Transaction.coinbase cb) miner
                (resolveTarget (Transaction.coinbase cb) st.working_authors)
            rw [h1]
            rfl
          · exact h2
          · exact h3

theorem add_block_parts
    {sha : List Nat → List Nat} {dumps : Json → List Nat}
    {ed : List Nat → List Nat → List Nat → Except CryptoError Unit}
    {c : Blockchain} {b : Block} {t : Int} {c2 : Blockchain}
    (h : add_block sha dumps ed c b t = Except.ok c2) :
    (∃ u, validate_block sha dumps ed b c t = Except.ok u) ∧
      c2 = apply_block sha dumps c b := by
  unfold add_block at h
  rcases bind_ok h with ⟨u, hv, h2⟩
  refine ⟨⟨u, hv⟩, ?_⟩
  simp only [pure, Except.pure] at h2
  injection h2 with h3
  exact h3.symm

theorem reachable_ne_nil
    {sha : List Nat → List Nat} {dumps : Json → List Nat}
    {ed : List Nat → List Nat → List Nat → Except CryptoError Unit}
    {c : Blockchain} {bs : List Block}
    (h : ReachableT sha dumps ed c bs) : bs ≠ [] := by
  cases h with
  | genesis m ts c2 hg => simp
  | step hr hadd => simp


theorem getD_append_lt {α : Type} {l l2 : List α} :
    ∀ {i : Nat}, i < l.length → ∀ d, (l ++ l2).getD i d = l.getD i d := by
  induction l with
  | nil => intro i h; simp at h
  | cons a rest ih =>
      intro i h d
      cases i with
      | zero => rfl
      | succ n =>
          simp only [List.cons_append, List.getD_cons_succ]
          exact ih (by simpa using h) d

theorem getD_map_lt {α β : Type} (f : α → β) {l : List α} {i : Nat}
    (h : i < l.length) (d : α) (d2 : β) :
    (l.map f).getD i d2 = f (l.getD i d) := by
  have h2 : i < (l.map f).length := by simpa using h
  rw [List.getD_eq_getElem?_getD, List.getElem?_map,
    List.getElem?_eq_getElem h, List.getD_eq_getElem?_getD,
    List.getElem?_eq_getElem h]
  rfl

theorem mem_getD_lt {α : Type} {l : List α} {i : Nat} (h : i < l.length)
    (d : α) : l.getD i d ∈ l := by
  rw [List.getD_eq_getElem?_getD, List.getElem?_eq_getElem h]
  exact List.getElem_mem h

theorem getLast?_eq_getD {α : Type} {l : List α} (hne : l ≠ []) (d : α) :
    l.getLast? = some (l.getD (l.length - 1) d) := by
  have hlt : l.length - 1 < l.length := by
    cases l with
    | nil => exact absurd rfl hne
    | cons a rest => simp
  rw [List.getLast?_eq_getElem?, List.getD_eq_getElem?_getD,
    List.getElem?_eq_getElem hlt]
  rfl

theorem genesisOfInitOk
    {sha : List Nat → List Nat} {dumps : Json → List Nat}
    {m : Bytes} {ts : Int} {c2 : Blockchain}
    (hg : initialize_genesis sha dumps emptyChain m ts = Except.ok c2) :
    c2 = apply_block sha dumps emptyChain (genesis_block sha dumps m ts) := by
  unfold initialize_genesis emptyChain at hg
  simp only [List.isEmpty_nil, Bool.not_true, Bool.false_eq_true, if_false] at hg
  injection hg with h2
  exact h2.symm

theorem genesis_chain_state (sha : List Nat → List Nat)
    (dumps : Json → List Nat) (m : Bytes) (ts : Int) :
    (apply_block sha dumps emptyChain (genesis_block sha dumps m ts)).state =
      [(m, credit (block_reward 0) Account.new)] := rfl

theorem genesis_chain_posts (sha : List Nat → List Nat)
    (dumps : Json → List Nat) (m : Bytes) (ts : Int) :
    (apply_block sha dumps emptyChain (genesis_block sha dumps m ts)).known_posts
      = [] := rfl

theorem apply_block_eq (sha : List Nat → List Nat) (dumps : Json → List Nat)
    (c : Blockchain) (b : Block) :
    apply_block sha dumps c b =
      applyBlockTxs sha dumps b.header.miner (b.block_hash sha dumps)
        b.transactions
        { c with blocks := aset c.blocks (b.block_hash sha dumps) b,
                 main_chain := c.main_chain ++ [b.block_hash sha dumps] } := rfl

theorem apply_block_fields (sha : List Nat → List Nat)
    (dumps : Json → List Nat) (c : Blockchain) (b : Block) :
    (apply_block sha dumps c b).blocks =
      aset c.blocks (b.block_hash sha dumps) b ∧
    (apply_block sha dumps c b).main_chain =
      c.main_chain ++ [b.block_hash sha dumps] := by
  rw [apply_block_eq]
  exact applyBlockTxs_frame sha dumps b.header.miner (b.block_hash sha dumps)
    b.transactions _

theorem reachable_covered
    {sha : List Nat → List Nat} {dumps : Json → List Nat}
    {ed : List Nat → List Nat → List Nat → Except CryptoError Unit}
    {c : Blockchain} {bs : List Block}
    (hr : ReachableT sha dumps ed c bs) :
    Covered c.known_posts c.post_authors := by
  induction hr with
  | genesis m ts c2 hg =>
      rw [genesisOfInitOk hg]
      intro h2 hmem
      rw [genesis_chain_posts] at hmem
      exact absurd hmem (by simp)
  | step hr2 hadd ih =>
      rename_i c0 bs0 b t c2
      rcases add_block_parts hadd with ⟨⟨u, hv⟩, hc2⟩
      rcases validate_block_ok_facts hv with
        ⟨_, _, _, cb, rest, stF, htxs, _, _, honecb, hloop⟩
      subst hc2
      rcases validateTxsLoop_sum b.transactions _ stF hloop ih with ⟨_, hcovF⟩
      rw [apply_block_eq]
      have halign := applyBlockTxs_align (b.block_hash sha dumps)
        b.transactions
        { working_state := c0.state, working_posts := c0.known_posts,
          working_authors := c0.post_authors, seen_hashes := [] } stF
        { c0 with blocks := aset c0.blocks (b.block_hash sha dumps) b,
                  main_chain := c0.main_chain ++ [b.block_hash sha dumps] }
        hloop rfl rfl rfl
      rw [halign.2.1, halign.2.2]
      exact hcovF

theorem reachable_nonneg
    {sha : List Nat → List Nat} {dumps : Json → List Nat}
    {ed : List Nat → List Nat → List Nat → Except CryptoError Unit}
    {c : Blockchain} {bs : List Block}
    (hr : ReachableT sha dumps ed c bs) : NonnegB c.state := by
  induction hr with
  | genesis m ts c2 hg =>
      rw [genesisOfInitOk hg]
      intro kv hkv
      rw [genesis_chain_state] at hkv
      rcases List.mem_singleton.mp hkv with h2
      rw [h2]
      have h3 := block_reward_nonneg 0
      dsimp only [credit, Account.new]
      omega
  | step hr2 hadd ih =>
      rename_i c0 bs0 b t c2
      rcases add_block_parts hadd with ⟨⟨u, hv⟩, hc2⟩
      rcases validate_block_ok_facts hv with
        ⟨_, _, _, cb, rest, stF, htxs, _, _, honecb, hloop⟩
      subst hc2
      rw [apply_block_eq]
      have halign := applyBlockTxs_align (b.block_hash sha dumps)
        b.transactions
        { working_state := c0.state, working_posts := c0.known_posts,
          working_authors := c0.post_authors, seen_hashes := [] } stF
        { c0 with blocks := aset c0.blocks (b.block_hash sha dumps) b,
                  main_chain := c0.main_chain ++ [b.block_hash sha dumps] }
        hloop rfl rfl rfl
      rw [halign.1]
      exact validateTxsLoop_nonneg b.transactions _ stF hloop ih


theorem cbAmount_sum_zero :
    ∀ {rest : List Transaction},
      (rest.all fun tx => !tx.isCoinbase) = true →
      (rest.map cbAmount).sum = 0 := by
  intro rest
  induction rest with
  | nil => intro h; rfl
  | cons tx rest2 ih =>
      intro h
      rcases List.all_eq_true.mp h tx (List.mem_cons_self _ _) with h2
      have h3 : (rest2.map cbAmount).sum = 0 :=
        ih (List.all_eq_true.mpr
          (fun x hx => List.all_eq_true.mp h x (List.mem_cons_of_mem _ hx)))
      cases tx with
      | post p => simp [cbAmount, h3]
      | endorse e => simp [cbAmount, h3]
      | transfer t => simp [cbAmount, h3]
      | coinbase cb => simp [Transaction.isCoinbase] at h2

/-- C2: for every reachable chain and every block accepted by `add_block`,
the sum of all account balances after the commit equals the sum before it
plus the block's coinbase amount (gas fees move to the miner and
endorsement tips to the endorsed post's author, so nothing else enters or
leaves the account set). -/
theorem c2_balance_conservation
    (sha : List Nat → List Nat) (dumps : Json → List Nat)
    (ed : List Nat → List Nat → List Nat → Except CryptoError Unit)
    {c : Blockchain} {bs : List Block}
    (hr : ReachableT sha dumps ed c bs)
    {b : Block} {t : Int} {c2 : Blockchain}
    (hadd : add_block sha dumps ed c b t = Except.ok c2) :
    sumBal c2.state = sumBal c.state + coinbaseAmount b := by
  rcases add_block_parts hadd with ⟨⟨u, hv⟩, hc2⟩
  rcases validate_block_ok_facts hv with
    ⟨_, _, _, cb, rest, stF, htxs, _, _, honecb, hloop⟩
  have hcov := reachable_covered hr
  rcases validateTxsLoop_sum b.transactions _ stF hloop hcov with ⟨hsum, _⟩
  subst hc2
  rw [apply_block_eq]
  have halign := applyBlockTxs_align (b.block_hash sha dumps) b.transactions
    { working_state := c.state, working_posts := c.known_posts,
      working_authors := c.post_authors, seen_hashes := [] } stF
    { c with blocks := aset c.blocks (b.block_hash sha dumps) b,
             main_chain := c.main_chain ++ [b.block_hash sha dumps] }
    hloop rfl rfl rfl
  rw [halign.1, hsum]
  have hsum2 : ((b.transactions).map cbAmount).sum = coinbaseAmount b := by
    rw [htxs]
    simp only [List.map_cons, List.sum_cons, cbAmount_sum_zero honecb]
    unfold coinbaseAmount
    rw [htxs]
    simp [cbAmount]
  rw [hsum2]

/-- C4: in every world state reachable via `initialize_genesis` followed by
successful `add_block` calls, every account has a nonnegative balance, and
a further successful `add_block` never decreases any account's nonce. -/
theorem c4_balances_nonneg_nonces_monotone
    (sha : List Nat → List Nat) (dumps : Json → List Nat)
    (ed : List Nat → List Nat → List Nat → Except CryptoError Unit)
    {c : Blockchain} {bs : List Block}
    (hr : ReachableT sha dumps ed c bs) :
    (∀ kv ∈ c.state, 0 ≤ kv.2.balance) ∧
    (∀ b t c2, add_block sha dumps ed c b t = Except.ok c2 →
      ∀ k, nonceOf c.state k ≤ nonceOf c2.state k) := by
  constructor
  · exact reachable_nonneg hr
  · intro b t c2 hadd k
    rcases add_block_parts hadd with ⟨⟨u, hv⟩, hc2⟩
    rcases validate_block_ok_facts hv with
      ⟨_, _, _, cb, rest, stF, htxs, _, _, honecb, hloop⟩
    subst hc2
    rw [apply_block_eq]
    have halign := applyBlockTxs_align (b.block_hash sha dumps) b.transactions
      { working_state := c.state, working_posts := c.known_posts,
        working_authors := c.post_authors, seen_hashes := [] } stF
      { c with blocks := aset c.blocks (b.block_hash sha dumps) b,
               main_chain := c.main_chain ++ [b.block_hash sha dumps] }
      hloop rfl rfl rfl
    rw [halign.1]
    exact validateTxsLoop_nonce b.transactions _ stF hloop k


theorem getD_append_len {α : Type} :
    ∀ (l : List α) (x : α) (d : α), (l ++ [x]).getD l.length d = x := by
  intro l x d
  induction l with
  | nil => rfl
  | cons a rest ih => simp [ih]

theorem tip_of_inv {sha : List Nat → List Nat} {dumps : Json → List Nat}
    {c : Blockchain} {bs : List Block}
    (hA : c.main_chain = bs.map (Block.block_hash sha dumps))
    (hB : ∀ b2 ∈ bs, alookup c.blocks (b2.block_hash sha dumps) = some b2)
    (hne : bs ≠ []) :
    c.tip = some (bs.getD (bs.length - 1) blockD) := by
  have hlen : 0 < bs.length := List.length_pos.mpr hne
  have hlt : bs.length - 1 < bs.length := by omega
  unfold Blockchain.tip
  rw [hA]
  have hmapne : bs.map (Block.block_hash sha dumps) ≠ [] := by
    simp [hne]
  rw [getLast?_eq_getD hmapne []]
  have hlen2 : (bs.map (Block.block_hash sha dumps)).length = bs.length := by
    simp
  rw [hlen2, getD_map_lt (Block.block_hash sha dumps) hlt blockD []]
  exact hB _ (mem_getD_lt hlt blockD)

theorem chain_inv
    {sha : List Nat → List Nat} {dumps : Json → List Nat}
    {ed : List Nat → List Nat → List Nat → Except CryptoError Unit}
    {c : Blockchain} {bs : List Block}
    (hr : ReachableT sha dumps ed c bs)
    (hnd : (bs.map (Block.block_hash sha dumps)).Nodup) :
    c.main_chain = bs.map (Block.block_hash sha dumps) ∧
    (∀ b2 ∈ bs, alookup c.blocks (b2.block_hash sha dumps) = some b2) ∧
    (∀ i, i < bs.length → (bs.getD i blockD).header.height = (i : Int)) ∧
    (0 < bs.length → (bs.getD 0 blockD).header.prev_hash = zero32) ∧
    (∀ i, i + 1 < bs.length →
      (bs.getD (i + 1) blockD).header.prev_hash =
        (bs.getD i blockD).block_hash sha dumps) := by
  induction hr with
  | genesis m ts c2 hg =>
      rw [genesisOfInitOk hg]
      have hfields := apply_block_fields sha dumps emptyChain
        (genesis_block sha dumps m ts)
      refine ⟨?_, ?_, ?_, ?_, ?_⟩
      · rw [hfields.2]
        rfl
      · intro b2 hb2
        rcases List.mem_singleton.mp hb2 with h2
        subst h2
        rw [hfields.1]
        exact alookup_aset_self [] _ _
      · intro i hi
        have h0 : i = 0 := by simpa using hi
        subst h0
        rfl
      · intro _
        rfl
      · intro i hi
        simp at hi
  | step hr2 hadd ih =>
      rename_i c0 bs0 b t c2
      have hmap : (bs0 ++ [b]).map (Block.block_hash sha dumps) =
          bs0.map (Block.block_hash sha dumps) ++ [b.block_hash sha dumps] := by
        simp
      rw [hmap] at hnd
      have hnd0 : (bs0.map (Block.block_hash sha dumps)).Nodup :=
        hnd.of_append_left
      have hnotin : b.block_hash sha dumps ∉
          bs0.map (Block.block_hash sha dumps) := by
        rcases (List.nodup_append.mp hnd) with ⟨_, _, hdisj⟩
        intro hmem
        exact hdisj hmem (List.mem_singleton.mpr rfl)
      rcases ih hnd0 with ⟨ihA, ihB, ihC, ihD, ihE⟩
      have hne0 : bs0 ≠ [] := reachable_ne_nil hr2
      have hlen0 : 0 < bs0.length := List.length_pos.mpr hne0
      rcases add_block_parts hadd with ⟨⟨u, hv⟩, hc2⟩
      have hfacts := validate_block_ok_facts hv
      have hh : b.header.height = c0.height + 1 := hfacts.2.1
      have hprev := hfacts.2.2.1
      subst hc2
      have hfields := apply_block_fields sha dumps c0 b
      have hlenA : c0.main_chain.length = bs0.length := by
        rw [ihA]; simp
      have htip := tip_of_inv ihA ihB hne0
      refine ⟨?_, ?_, ?_, ?_, ?_⟩
      · rw [hfields.2, ihA, hmap]
      · intro b2 hb2
        rw [hfields.1]
        rcases List.mem_append.mp hb2 with hm | hm
        · have hne2 : b2.block_hash sha dumps ≠ b.block_hash sha dumps := by
            intro heq
            exact hnotin (heq ▸ List.mem_map_of_mem (Block.block_hash sha dumps) hm)
          rw [alookup_aset_ne hne2]
          exact ihB b2 hm
        · rcases List.mem_singleton.mp hm with h2
          subst h2
          exact alookup_aset_self _ _ _
      · intro i hi
        simp only [List.length_append, List.length_singleton] at hi
        by_cases hilt : i < bs0.length
        · rw [getD_append_lt hilt]
          exact ihC i hilt
        · have h2 : i = bs0.length := by omega
          subst h2
          rw [getD_append_len]
          rw [hh]
          unfold Blockchain.height
          rw [hlenA]
          omega
      · intro _
        rw [getD_append_lt hlen0]
        exact ihD hlen0
      · intro i hi
        simp only [List.length_append, List.length_singleton] at hi
        by_cases hilt : i + 1 < bs0.length
        · rw [getD_append_lt hilt, getD_append_lt (by omega)]
          exact ihE i hilt
        · have h2 : i + 1 = bs0.length := by omega
          have h3 : i < bs0.length := by omega
          rw [h2, getD_append_len, getD_append_lt h3]
          rw [hprev, htip]
          have h4 : bs0.length - 1 = i := by omega
          rw [h4]


/-- C3: in every chain reachable from an empty `Blockchain` via
`initialize_genesis` and successful `add_block` calls (assuming, as the
code does of SHA-256, that no two distinct blocks of the run share a block
hash), the block found at `main_chain[i]` has height `i`, the genesis entry
has an all-zero previous hash, each later entry's `prev_hash` is the block
hash of its predecessor, and every further successful `add_block` raises
the height by exactly one. -/
theorem c3_chain_linkage
    (sha : List Nat → List Nat) (dumps : Json → List Nat)
    (ed : List Nat → List Nat → List Nat → Except CryptoError Unit)
    {c : Blockchain} {bs : List Block}
    (hr : ReachableT sha dumps ed c bs)
    (hnd : (bs.map (Block.block_hash sha dumps)).Nodup) :
    c.main_chain = bs.map (Block.block_hash sha dumps) ∧
    (∀ i, i < c.main_chain.length →
      ∃ b2, alookup c.blocks (c.main_chain.getD i []) = some b2 ∧
        b2.header.height = (i : Int) ∧
        (i = 0 → b2.header.prev_hash = zero32) ∧
        (∀ j, i = j + 1 →
          ∃ bp, alookup c.blocks (c.main_chain.getD j []) = some bp ∧
            b2.header.prev_hash = bp.block_hash sha dumps)) ∧
    (∀ b t c2, add_block sha dumps ed c b t = Except.ok c2 →
      c2.height = c.height + 1) := by
  rcases chain_inv hr hnd with ⟨hA, hB, hC, hD, hE⟩
  have hlenA : c.main_chain.length = bs.length := by rw [hA]; simp
  refine ⟨hA, ?_, ?_⟩
  · intro i hi
    rw [hlenA] at hi
    have hgd : c.main_chain.getD i [] = (bs.getD i blockD).block_hash sha dumps := by
      rw [hA]
      exact getD_map_lt (Block.block_hash sha dumps) hi blockD []
    refine ⟨bs.getD i blockD, ?_, hC i hi, ?_, ?_⟩
    · rw [hgd]
      exact hB _ (mem_getD_lt hi blockD)
    · intro h0
      subst h0
      exact hD (by omega)
    · intro j hj
      have hjlt : j < bs.length := by omega
      have hgdj : c.main_chain.getD j [] =
          (bs.getD j blockD).block_hash sha dumps := by
        rw [hA]
        exact getD_map_lt (Block.block_hash sha dumps) hjlt blockD []
      refine ⟨bs.getD j blockD, ?_, ?_⟩
      · rw [hgdj]
        exact hB _ (mem_getD_lt hjlt blockD)
      · rw [hj]
        exact hE j (by omega)
  · intro b t c2 hadd
    rcases add_block_parts hadd with ⟨_, hc2⟩
    subst hc2
    have hfields := apply_block_fields sha dumps c b
    unfold Blockchain.height
    rw [hfields.2]
    simp only [List.length_append, List.length_singleton]
    omega


set_option maxRecDepth 200000 in
/-- C2 witness: committing the concrete height-1 block onto the concrete
genesis chain raises the balance total by exactly its coinbase amount. -/
theorem c2_witness :
    sumBal (apply_block shaW dumpsW witGenesis witB1).state =
      sumBal witGenesis.state + coinbaseAmount witB1 :=
  c2_balance_conservation shaW dumpsW edOkW
    (ReachableT.genesis zero32 0 witGenesis rfl)
    (show add_block shaW dumpsW edOkW witGenesis witB1 1 =
        Except.ok (apply_block shaW dumpsW witGenesis witB1) from rfl)

/-- C3 witness: the invariant evaluated on the concrete genesis chain. -/
theorem c3_witness :
    witGenesis.main_chain =
      [genesis_block shaW dumpsW zero32 0].map (Block.block_hash shaW dumpsW) ∧
    (∀ i, i < witGenesis.main_chain.length →
      ∃ b2, alookup witGenesis.blocks (witGenesis.main_chain.getD i []) =
          some b2 ∧
        b2.header.height = (i : Int) ∧
        (i = 0 → b2.header.prev_hash = zero32) ∧
        (∀ j, i = j + 1 →
          ∃ bp, alookup witGenesis.blocks (witGenesis.main_chain.getD j []) =
              some bp ∧
            b2.header.prev_hash = bp.block_hash shaW dumpsW)) ∧
    (∀ b t c2, add_block shaW dumpsW edOkW witGenesis b t = Except.ok c2 →
      c2.height = witGenesis.height + 1) :=
  c3_chain_linkage shaW dumpsW edOkW
    (ReachableT.genesis zero32 0 witGenesis rfl) (by simp)

/-- C4 witness: nonnegative balances and nonce monotonicity at the concrete
genesis chain. -/
theorem c4_witness :
    (∀ kv ∈ witGenesis.state, 0 ≤ kv.2.balance) ∧
    (∀ b t c2, add_block shaW dumpsW edOkW witGenesis b t = Except.ok c2 →
      ∀ k, nonceOf witGenesis.state k ≤ nonceOf c2.state k) :=
  c4_balances_nonneg_nonces_monotone shaW dumpsW edOkW
    (ReachableT.genesis zero32 0 witGenesis rfl)

end Jiji
